import Mathlib

/-!
Verification of `hook_demo_editor.py` (a video-combining script) against its
specification.  The script's pure core is `wrap_text_for_margins`, which calls
CPython's `textwrap.fill(text, width=23, break_long_words=False)`; we embed the
CPython 3.11 `textwrap` algorithm (whitespace munging, the `wordsep_re` chunk
splitter with `break_on_hyphens=True`, and the greedy `_wrap_chunks` packer with
`drop_whitespace=True`, `break_long_words=False`, empty indents,
`max_lines=None`).  Strings are modelled as `List Char`; the regex character
classes are modelled at their ASCII meaning.  The effectful parts
(`combine_videos` and its fallbacks, `find_file`, `run`, `main`) are embedded as
pure functions over an explicit environment describing subprocess outcomes and
an explicit temp-file state, emitting an event trace.
-/

namespace HookDemo

/-! ### Character classes of CPython textwrap

`_whitespace = '\t\n\x0b\x0c\r '`; `word_punct = [\w!"'&.,?]`;
`letter = [^\d\W]` (a word character that is not a digit, i.e. letters and
underscore); `\w` is modelled at its ASCII meaning. -/

def pyWsChar (c : Char) : Bool :=
  c = '\t' || c = '\n' || c = '\x0b' || c = '\x0c' || c = '\r' || c = ' '

def isWordChar (c : Char) : Bool := c.isAlphanum || c = '_'

def isLetterChar (c : Char) : Bool := c.isAlpha || c = '_'

def isWordPunct (c : Char) : Bool :=
  isWordChar c || c = '!' || c = '"' || c = '\'' || c = '&' || c = '.' ||
    c = ',' || c = '?'

/-! ### `str.expandtabs(8)` and `_munge_whitespace` -/

/-- Python `str.expandtabs(8)`: each tab becomes `8 - col % 8` spaces; the column
counter is reset after a newline or carriage return. -/
def expandTabsGo : List Char → Nat → List Char
  | [], _ => []
  | c :: cs, col =>
    if c = '\t' then
      List.replicate (8 - col % 8) ' ' ++ expandTabsGo cs (col + (8 - col % 8))
    else if c = '\n' || c = '\r' then
      c :: expandTabsGo cs 0
    else
      c :: expandTabsGo cs (col + 1)

/-- Model of `TextWrapper._munge_whitespace`: expand tabs, then translate every
character of `_whitespace` to a space. -/
def mungeWhitespace (cs : List Char) : List Char :=
  (expandTabsGo cs 0).map (fun c => if pyWsChar c then ' ' else c)

/-! ### The `wordsep_re` chunk splitter (`break_on_hyphens=True`)

The scanner below is a deterministic rendering of the regex
```
( ws+
| (?<=wp) -(2 or more) (?=word)
| nws+? ( -((?<=lt lt -)|(?<=lt - lt -)) (?= lt -? lt)
        | (?=ws or end)
        | (?<=wp) (?=-(2 or more) word) ) )
```
Lookbehinds inspect the full already-consumed prefix of the text (they may
reach across chunk boundaries), so the reversed prefix `revAll` is threaded
through the scan. -/

/-- Lookbehind of the hyphenated-word break, evaluated just before consuming
the hyphen: the consumed prefix ends in two letters, or in letter-hyphen-letter. -/
def hyphenBreakBehind : List Char → Bool
  | b :: h :: t =>
    (isLetterChar b && isLetterChar h) ||
      (isLetterChar b && h = '-' &&
        (match t with | a :: _ => isLetterChar a | [] => false))
  | _ => false

/-- Lookahead of the hyphenated-word break, evaluated just after the hyphen:
a letter, an optional hyphen, then a letter. -/
def hyphenBreakAhead : List Char → Bool
  | a :: b :: t =>
    isLetterChar a && (isLetterChar b ||
      (b = '-' && (match t with | c :: _ => isLetterChar c | [] => false)))
  | _ => false

/-- Lookahead `-(2 or more) word-char`: at least two hyphens followed
immediately by a word character. -/
def emDashAhead (cs : List Char) : Bool :=
  decide (2 ≤ (cs.takeWhile (fun x => x = '-')).length) &&
    (match cs.dropWhile (fun x => x = '-') with
     | a :: _ => isWordChar a
     | [] => false)

def headIsWordPunct : List Char → Bool
  | a :: _ => isWordPunct a
  | [] => false

/-- The lazy `nws+?` word scan.  `chunkRev` is the reversed body consumed so
far (never empty), `revAll0` the reversed text prefix before the body.  At each
step the three tail alternatives of the regex are tried in order; otherwise the
next (necessarily non-whitespace) character joins the body. -/
def wordGo (revAll0 : List Char) : List Char → List Char → (List Char × List Char)
  | chunkRev, [] => (chunkRev, [])
  | chunkRev, r :: rs =>
    if r = '-' && hyphenBreakBehind (chunkRev ++ revAll0) && hyphenBreakAhead rs then
      (r :: chunkRev, rs)
    else if pyWsChar r then
      (chunkRev, r :: rs)
    else if headIsWordPunct (chunkRev ++ revAll0) && emDashAhead (r :: rs) then
      (chunkRev, r :: rs)
    else
      wordGo revAll0 (r :: chunkRev) rs

/-- One chunk per recursive step: a maximal whitespace run, an em-dash run, or
a (possibly hyphen-terminated) word body.  `revAll` is the reversed consumed
prefix; `fuel` bounds the number of chunks (each chunk is nonempty, so the
text length suffices). -/
def splitGo : Nat → List Char → List Char → List (List Char)
  | 0, _, _ => []
  | _ + 1, _, [] => []
  | fuel + 1, revAll, c :: rest =>
    if pyWsChar c then
      let run := (c :: rest).takeWhile pyWsChar
      let rest2 := (c :: rest).dropWhile pyWsChar
      run :: splitGo fuel (run.reverse ++ revAll) rest2
    else
      let hyph := (c :: rest).takeWhile (fun x => x = '-')
      let afterH := (c :: rest).dropWhile (fun x => x = '-')
      if headIsWordPunct revAll && decide (2 ≤ hyph.length) &&
          (match afterH with | a :: _ => isWordChar a | [] => false) then
        hyph :: splitGo fuel (hyph.reverse ++ revAll) afterH
      else
        let res := wordGo revAll [c] rest
        res.1.reverse :: splitGo fuel (res.1 ++ revAll) res.2

/-- Model of `TextWrapper._split` applied to (already munged) text. -/
def splitChunksData (cs : List Char) : List (List Char) :=
  splitGo cs.length [] cs

/-! ### `_wrap_chunks` (`drop_whitespace=True`, `break_long_words=False`,
empty indents, `max_lines=None`) -/

/-- A chunk `c` satisfies `c.strip() == ''` iff all its characters are
whitespace. -/
def isWsChunk (c : List Char) : Bool := c.all pyWsChar

/-- The inner packing loop: move chunks onto the current line while the
accumulated length stays within `width`. -/
def packChunks (width : Nat) : Nat → List (List Char) → (List (List Char) × List (List Char))
  | _, [] => ([], [])
  | curLen, c :: rest =>
    if curLen + c.length ≤ width then
      let res := packChunks width (curLen + c.length) rest
      (c :: res.1, res.2)
    else
      ([], c :: rest)

/-- Drop the final chunk of the line when it is all whitespace. -/
def dropTrailingWs (curLine : List (List Char)) : List (List Char) :=
  match curLine.getLast? with
  | some c => if isWsChunk c then curLine.dropLast else curLine
  | none => curLine

/-- The outer loop of `_wrap_chunks`.  Per iteration: drop a leading
whitespace chunk (except before the first emitted line), pack greedily,
apply `_handle_long_word` (with `break_long_words=False` it moves an
oversized chunk onto an empty line), drop a trailing whitespace chunk, and
emit the joined line if nonempty.  `acc` collects emitted lines in reverse. -/
def wrapGo (width : Nat) : Nat → List (List Char) → List (List Char) → List (List Char)
  | 0, _, acc => acc.reverse
  | _ + 1, [], acc => acc.reverse
  | fuel + 1, c :: rest, acc =>
    let chunks1 := if isWsChunk c && !acc.isEmpty then rest else c :: rest
    let pr := packChunks width 0 chunks1
    let hl : List (List Char) × List (List Char) :=
      match pr.2 with
      | d :: rest2 => if width < d.length && pr.1.isEmpty then ([d], rest2) else pr
      | [] => pr
    let curLine := dropTrailingWs hl.1
    let acc2 := if curLine.isEmpty then acc else curLine.flatten :: acc
    wrapGo width fuel hl.2 acc2

def wrapChunkLines (width : Nat) (chunks : List (List Char)) : List (List Char) :=
  wrapGo width chunks.length chunks []

/-- Model of `TextWrapper.wrap`. -/
def textwrapWrapData (width : Nat) (cs : List Char) : List (List Char) :=
  wrapChunkLines width (splitChunksData (mungeWhitespace cs))

/-- Model of `TextWrapper.fill`. -/
def textwrapFillData (width : Nat) (cs : List Char) : List Char :=
  List.intercalate ['\n'] (textwrapWrapData width cs)

/-- Model of `VideoCombiner.wrap_text_for_margins`: computes an (unused) available
width from the margins, fixes `chars_per_line = 23`, and calls
`textwrap.fill(text, width=23, break_long_words=False)`. -/
def wrap_text_for_margins (text : String) (video_width : Nat) (margin_percent : Nat) : String :=
  let _available_width_percent := 100 - margin_percent * 2
  let chars_per_line := 23
  let _unused := video_width
  String.mk (textwrapFillData chars_per_line text.data)

/-! ### Model of the effectful part of the script

Subprocess invocations are oracles supplied by an environment: an FFmpeg
invocation either raises (`exn`) or returns an exit code and captured
diagnostic output; an ffprobe invocation either raises or returns captured
stdout.  The temp-file state is a predicate on paths; every file operation of
the script is also recorded in an event trace. -/

structure ProcResult where
  returncode : Int
  stderr : String
deriving DecidableEq, Repr

inductive ProcOutcome where
  | exn
  | ok (r : ProcResult)
deriving DecidableEq, Repr

inductive ProbeOutcome where
  | exn
  | ok (stdout : String)
deriving DecidableEq, Repr

/-- Python `str.strip()` (modelled on the ASCII whitespace class). -/
def pyStripData (cs : List Char) : List Char :=
  ((cs.dropWhile pyWsChar).reverse.dropWhile pyWsChar).reverse

def pyStrip (s : String) : String := String.mk (pyStripData s.data)

/-- A Python number as produced by `get_video_duration`: the int literal `0`
from the exception path, or a float (modelled as a rational). -/
inductive PyNum where
  | ofInt (n : Int)
  | ofFloat (q : ℚ)
deriving DecidableEq, Repr

def digitsVal (ds : List Char) : Nat :=
  ds.foldl (fun a c => a * 10 + (c.toNat - 48)) 0

def pyFloatParseExp (mant : ℚ) (cs : List Char) : Option ℚ :=
  let sc : Int × List Char :=
    match cs with
    | '+' :: t => (1, t)
    | '-' :: t => (-1, t)
    | _ => (1, cs)
  let ed := sc.2.takeWhile Char.isDigit
  let rest := sc.2.dropWhile Char.isDigit
  if ed.isEmpty || !rest.isEmpty then none
  else some (mant * (10 : ℚ) ^ (sc.1 * (digitsVal ed : Int)))

/-- Model of CPython `float(s)` on decimal literals: optional sign, digits
with optional fractional part (at least one mantissa digit), optional
exponent; surrounding whitespace is stripped.  (`inf`/`nan` spellings and
underscore separators are not modelled.) -/
def pyFloat (s : String) : Option ℚ :=
  let cs0 := pyStripData s.data
  let sc : ℚ × List Char :=
    match cs0 with
    | '+' :: t => (1, t)
    | '-' :: t => (-1, t)
    | _ => (1, cs0)
  let ip := sc.2.takeWhile Char.isDigit
  let cs2 := sc.2.dropWhile Char.isDigit
  let fc : List Char × List Char :=
    match cs2 with
    | '.' :: t => (t.takeWhile Char.isDigit, t.dropWhile Char.isDigit)
    | _ => ([], cs2)
  if ip.isEmpty && fc.1.isEmpty then none
  else
    let mant : ℚ := sc.1 * ((digitsVal ip : ℚ) + (digitsVal fc.1 : ℚ) / 10 ^ fc.1.length)
    match fc.2 with
    | [] => some mant
    | 'e' :: t => pyFloatParseExp mant t
    | 'E' :: t => pyFloatParseExp mant t
    | _ => none

/-- Model of `get_video_duration`: parse `float(result.stdout.strip())`; any failure
(subprocess exception, empty or unparsable output) is caught and yields the
int `0`. -/
def get_video_duration : ProbeOutcome → PyNum
  | .exn => .ofInt 0
  | .ok out =>
    match pyFloat (pyStrip out) with
    | some q => .ofFloat q
    | none => .ofInt 0

/-- Python `str()` of a rational standing for a float, for the terminating
decimals our model manipulates (integers print with a trailing `.0`, exactly
as Python floats do). -/
def ratFloatStr (q : ℚ) : String :=
  match (List.range 41).find? (fun e => decide (q.den ∣ 10 ^ e)) with
  | some e0 =>
    let e := max e0 1
    let sgn := if q < 0 then "-" else ""
    let m : Nat := q.num.natAbs * (10 ^ e / q.den)
    let fs := toString (m % 10 ^ e)
    sgn ++ toString (m / 10 ^ e) ++ "." ++
      String.mk (List.replicate (e - fs.length) '0') ++ fs
  | none => toString q.num ++ "/" ++ toString q.den

/-- Python `str`/f-string interpolation of the numbers in our model. -/
def pyNumStr : PyNum → String
  | .ofInt n => toString n
  | .ofFloat q => ratFloatStr q

/-- Python's substring test `needle in hay`. -/
def isPrefixL : List Char → List Char → Bool
  | [], _ => true
  | _ :: _, [] => false
  | a :: as, b :: bs => a = b && isPrefixL as bs

def containsSubL (needle : List Char) : List Char → Bool
  | [] => needle.isEmpty
  | c :: rest => isPrefixL needle (c :: rest) || containsSubL needle rest

def strContains (hay needle : String) : Bool := containsSubL needle.data hay.data

/-! ### Environment, paths, events, file state -/

structure CombineEnv where
  scriptDir : String
  overlayInput : String
  bundledFontExists : Bool
  systemFont : Option String
  hookProbe : ProbeOutcome
  demoProbe : ProbeOutcome
  outputProbe : ProbeOutcome
  mainRun : ProcOutcome
  fallbackRun : ProcOutcome
  noTextRun : ProcOutcome

def textFilePath (env : CombineEnv) : String := env.scriptDir ++ "/overlay_text.txt"

def lineFilePath (env : CombineEnv) (i : Nat) : String :=
  env.scriptDir ++ "/overlay_text_line_" ++ toString i ++ ".txt"

def fontPath (env : CombineEnv) : String :=
  env.scriptDir ++ "/assets/TikTokDisplay-Medium.ttf"

def outputPath (env : CombineEnv) : String :=
  env.scriptDir ++ "/combined_video_with_audio.mp4"

inductive Ev where
  | writeTextFile (path content : String)
  | unlink (path : String)
  | ffprobe (path : String)
  | ffmpegMain (filterComplex : String)
  | ffmpegFallback (filterComplex : String)
  | ffmpegNoText (filterComplex : String)
  | reportMissing (folder : String)
deriving DecidableEq, Repr

abbrev Fs := String → Bool

def fsSet (fs : Fs) (p : String) (b : Bool) : Fs :=
  fun q => if q = p then b else fs q

/-- Model of `if path.exists(): path.unlink()`. -/
def unlinkIfExists (fs : Fs) (p : String) : Fs × List Ev :=
  if fs p then (fsSet fs p false, [.unlink p]) else (fs, [])

/-! ### Filter-graph construction (transcribed from the source) -/

/-- The `drawtext` filter of `combine_videos` (75pt, white, black border,
centered, shown for the first five seconds). -/
def drawtextFilter (textFile fontParam : String) : String :=
  "drawtext=textfile='" ++ textFile ++ "'" ++ fontParam ++
    ":fontsize=75:fontcolor=white:borderw=4:bordercolor=black" ++
    ":x=(w-text_w)/2:y=(h-text_h)/2+100:text_align=C:enable='between(t,0,5)'"

/-- Video part of the filter graph when a text overlay is present (used by
`combine_videos` and, with an empty font parameter, by
`combine_videos_fallback`). -/
def filterVideoWithText (dt : String) : String :=
  "[0:v]scale=1080:1920:force_original_aspect_ratio=increase,crop=1080:1920," ++
    dt ++ "[v0];" ++
    "[1:v]scale=1080:1920:force_original_aspect_ratio=decrease," ++
    "pad=1080:1920:(ow-iw)/2:(oh-ih)/2:black[v1];" ++
    "[v0][v1]concat=n=2:v=1:a=0[outv];"

/-- Video part of the filter graph without a text overlay. -/
def filterVideoNoText : String :=
  "[0:v]scale=1080:1920:force_original_aspect_ratio=increase,crop=1080:1920[v0];" ++
    "[1:v]scale=1080:1920:force_original_aspect_ratio=decrease," ++
    "pad=1080:1920:(ow-iw)/2:(oh-ih)/2:black[v1];" ++
    "[v0][v1]concat=n=2:v=1:a=0[outv];"

/-- Audio part of the filter graph: synthesized silence for the hook's
duration, the demo's own audio, and the overlay track lowered to -15dB. -/
def filterAudio (hookDurationStr : String) : String :=
  "aevalsrc=0:d=" ++ hookDurationStr ++ ":s=44100:c=stereo[silence];" ++
    "[1:a]aformat=sample_rates=44100:channel_layouts=stereo[demo_audio];" ++
    "[silence][demo_audio]concat=n=2:v=0:a=1[original_audio];" ++
    "[2:a]volume=-15dB[overlay_audio];" ++
    "[original_audio][overlay_audio]amix=inputs=2:duration=first:dropout_transition=2[outa]"

/-- Font selection: the bundled TikTok font if present, else a system font
found by `get_font_path`, else FFmpeg's default (empty parameter). -/
def fontParamOf (env : CombineEnv) : String :=
  if env.bundledFontExists then ":fontfile='" ++ fontPath env ++ "'"
  else
    match env.systemFont with
    | some f => ":fontfile='" ++ f ++ "'"
    | none => ""

/-! ### `combine_videos` and its fallbacks -/

structure CombineOut where
  success : Bool
  fs : Fs
  evs : List Ev

def lineCleanupStep (env : CombineEnv) (st : Fs × List Ev) (i : Nat) : Fs × List Ev :=
  let u := unlinkIfExists st.1 (lineFilePath env i)
  (u.1, st.2 ++ u.2)

/-- Cleanup of the `overlay_text_line_i.txt` files for `i < 10`. -/
def cleanupLineFiles (env : CombineEnv) (fs : Fs) : Fs × List Ev :=
  (List.range 10).foldl (lineCleanupStep env) (fs, [])

/-- Cleanup after `process.wait()`: the overlay text file, then the line
files. -/
def mainCleanup (env : CombineEnv) (fs : Fs) : Fs × List Ev :=
  let u := unlinkIfExists fs (textFilePath env)
  let l := cleanupLineFiles env u.1
  (l.1, u.2 ++ l.2)

/-- Model of `combine_videos_no_text`: the video/audio combination with the overlay
omitted entirely. -/
def combine_videos_no_text (env : CombineEnv) (fs : Fs) (hook_duration : PyNum) :
    CombineOut :=
  let filter_complex := filterVideoNoText ++ filterAudio (pyNumStr hook_duration)
  match env.noTextRun with
  | .ok r =>
    if r.returncode = 0 then
      { success := true, fs := fs,
        evs := [.ffmpegNoText filter_complex, .ffprobe (outputPath env)] }
    else
      { success := false, fs := fs, evs := [.ffmpegNoText filter_complex] }
  | .exn => { success := false, fs := fs, evs := [.ffmpegNoText filter_complex] }

/-- Model of `combine_videos_fallback`: rewrite the overlay text file, retry with a
`drawtext` filter that has no font parameter; on a further non-zero exit fall
back to `combine_videos_no_text`; clean the text file up on every path. -/
def combine_videos_fallback (env : CombineEnv) (fs : Fs) (overlay_text : String)
    (hook_duration : PyNum) : CombineOut :=
  let text_file := textFilePath env
  let fs1 := fsSet fs text_file true
  let ev0 : List Ev :=
    [.writeTextFile text_file (wrap_text_for_margins overlay_text 1080 5)]
  let filter_complex :=
    filterVideoWithText (drawtextFilter text_file "") ++
      filterAudio (pyNumStr hook_duration)
  match env.fallbackRun with
  | .ok r =>
    let u := unlinkIfExists fs1 text_file
    if r.returncode = 0 then
      { success := true, fs := u.1,
        evs := ev0 ++ [.ffmpegFallback filter_complex] ++ u.2 ++
          [.ffprobe (outputPath env)] }
    else
      let nt := combine_videos_no_text env u.1 hook_duration
      { success := nt.success, fs := nt.fs,
        evs := ev0 ++ [.ffmpegFallback filter_complex] ++ u.2 ++ nt.evs }
  | .exn =>
    let u := unlinkIfExists fs1 text_file
    { success := false, fs := u.1,
      evs := ev0 ++ [.ffmpegFallback filter_complex] ++ u.2 }

/-- Model of `combine_videos`: strip the operator's overlay text, probe durations,
optionally write the overlay text file and add a `drawtext` filter, invoke
FFmpeg, clean up the temp files, and dispatch on the diagnostic output:
`No such filter` is terminal; a `fontfile`/`textfile` mention triggers the
font fallback (only when there is overlay text); anything else fails. -/
def combine_videos (env : CombineEnv) (hook_path demo_path : String) (fs : Fs) :
    CombineOut :=
  let overlay_text := pyStrip env.overlayInput
  let hook_duration := get_video_duration env.hookProbe
  let _demo_duration := get_video_duration env.demoProbe
  let probeEvs : List Ev := [.ffprobe hook_path, .ffprobe demo_path]
  let createdEvs : List Ev :=
    if overlay_text ≠ "" then
      [.writeTextFile (textFilePath env) (wrap_text_for_margins overlay_text 1080 5)]
    else []
  let fs1 := if overlay_text ≠ "" then fsSet fs (textFilePath env) true else fs
  let filter_complex :=
    if overlay_text ≠ "" then
      filterVideoWithText (drawtextFilter (textFilePath env) (fontParamOf env)) ++
        filterAudio (pyNumStr hook_duration)
    else
      filterVideoNoText ++ filterAudio (pyNumStr hook_duration)
  match env.mainRun with
  | .ok r =>
    let cl := if overlay_text ≠ "" then mainCleanup env fs1 else (fs1, [])
    let evs0 := probeEvs ++ createdEvs ++ [.ffmpegMain filter_complex] ++ cl.2
    if r.returncode = 0 then
      { success := true, fs := cl.1, evs := evs0 ++ [.ffprobe (outputPath env)] }
    else if strContains r.stderr "No such filter" then
      { success := false, fs := cl.1, evs := evs0 }
    else if strContains r.stderr "fontfile" || strContains r.stderr "textfile" then
      if overlay_text ≠ "" then
        let fb := combine_videos_fallback env cl.1 overlay_text hook_duration
        { success := fb.success, fs := fb.fs, evs := evs0 ++ fb.evs }
      else
        { success := false, fs := cl.1, evs := evs0 }
    else
      { success := false, fs := cl.1, evs := evs0 }
  | .exn =>
    let u := if overlay_text ≠ "" then unlinkIfExists fs1 (textFilePath env)
             else (fs1, [])
    let l := cleanupLineFiles env u.1
    { success := false, fs := l.1,
      evs := probeEvs ++ createdEvs ++ [.ffmpegMain filter_complex] ++ u.2 ++ l.2 }

/-! ### `find_file`, `run`, `main` -/

/-- A folder as `find_file` sees it: a presence flag and, for each glob
pattern, the matching files in the (fixed) filesystem order. -/
structure Folder where
  name : String
  present : Bool
  glob : String → List String

def video_extensions : List String := [".mp4", ".mov", ".avi", ".mkv", ".webm"]

def audio_extensions : List String := [".mp3", ".wav", ".aac", ".m4a", ".flac"]

def findFirstExt (folder : Folder) : List String → Option String
  | [] => none
  | ext :: rest =>
    match folder.glob ("*" ++ ext) with
    | [] => findFirstExt folder rest
    | f :: _ => some f

/-- Model of `find_file`: `None` with a report if the folder is absent; otherwise the
first entry of the first non-empty glob over the extension list, or `None`
with a report when every glob is empty. -/
def find_file (folder : Folder) (extensions : List String) : Option String × List Ev :=
  if folder.present = false then (none, [.reportMissing folder.name])
  else
    match findFirstExt folder extensions with
    | some f => (some f, [])
    | none => (none, [.reportMissing folder.name])

structure RunEnv where
  ffmpegOnPath : Bool
  hooks : Folder
  demo : Folder
  audio : Folder
  combineEnv : CombineEnv
  fs0 : Fs

/-- Model of `VideoCombiner.run`: dependency check, the three discovery steps (each
aborting the run when it fails), then `combine_videos`. -/
def run (env : RunEnv) : Bool × List Ev :=
  if env.ffmpegOnPath = false then (false, [])
  else
    match find_file env.hooks video_extensions with
    | (none, e1) => (false, e1)
    | (some hook_video, e1) =>
      match find_file env.demo video_extensions with
      | (none, e2) => (false, e1 ++ e2)
      | (some demo_video, e2) =>
        match find_file env.audio audio_extensions with
        | (none, e3) => (false, e1 ++ e2 ++ e3)
        | (some _audio_file, e3) =>
          let out := combine_videos env.combineEnv hook_video demo_video env.fs0
          (out.success, e1 ++ e2 ++ e3 ++ out.evs)

/-- Model of `main`: `sys.exit(0 if success else 1)`. -/
def mainExitCode (env : RunEnv) : Nat :=
  if (run env).1 then 0 else 1

/-! ### Notions used to state the claims -/

/-- Relation `Covers chunks lns`: the lines `lns` are obtained from the chunk sequence
by cutting it into contiguous nonempty segments (each line is the
concatenation of one segment) while discarding some whitespace chunks between
segments.  This is exactly the freedom `_wrap_chunks` has with
`drop_whitespace=True`: a line break never cuts through a chunk. -/
inductive Covers : List (List Char) → List (List Char) → Prop
  | nil : Covers [] []
  | drop {c : List Char} {rest : List (List Char)} {lns : List (List Char)} :
      isWsChunk c = true → Covers rest lns → Covers (c :: rest) lns
  | seg {s : List (List Char)} {rest : List (List Char)} {lns : List (List Char)} :
      s ≠ [] → Covers rest lns → Covers (s ++ rest) (s.flatten :: lns)

/-- Relation between adjacent chunks of the splitter: one of them is
whitespace, or they meet at a hyphen (the left one ends in `-`, or the right
one begins with `-`). -/
def chunkRel (c1 c2 : List Char) : Prop :=
  c1.all pyWsChar = true ∨ c2.all pyWsChar = true ∨
    c1.getLast? = some '-' ∨ c2.head? = some '-'

def isMainEv : Ev → Bool
  | .ffmpegMain _ => true
  | _ => false

def isFallbackEv : Ev → Bool
  | .ffmpegFallback _ => true
  | _ => false

def isNoTextEv : Ev → Bool
  | .ffmpegNoText _ => true
  | _ => false

/-! ### Concrete environments for the closed instances -/

/-- FFmpeg fails and the diagnostic mentions both `No such filter` and
`fontfile`. -/
def envFontBoth : CombineEnv where
  scriptDir := "."
  overlayInput := "hi"
  bundledFontExists := true
  systemFont := none
  hookProbe := .ok "2.5"
  demoProbe := .ok "3.5"
  outputProbe := .ok "6.0"
  mainRun := .ok ⟨1, "xx No such filter yy fontfile zz"⟩
  fallbackRun := .ok ⟨1, ""⟩
  noTextRun := .ok ⟨0, ""⟩

/-- FFmpeg fails with a pure font diagnostic; the font fallback also fails;
the no-text pass succeeds. -/
def envFontOnly : CombineEnv where
  scriptDir := "."
  overlayInput := "hi"
  bundledFontExists := true
  systemFont := none
  hookProbe := .ok "2.5"
  demoProbe := .ok "3.5"
  outputProbe := .ok "6.0"
  mainRun := .ok ⟨1, "yy fontfile zz"⟩
  fallbackRun := .ok ⟨1, ""⟩
  noTextRun := .ok ⟨0, ""⟩

/-- The hook probe produces unparsable output; everything else succeeds. -/
def envBadProbe : CombineEnv where
  scriptDir := "."
  overlayInput := "hi"
  bundledFontExists := true
  systemFont := none
  hookProbe := .ok "garbage"
  demoProbe := .ok "3.5"
  outputProbe := .ok "6.0"
  mainRun := .ok ⟨0, ""⟩
  fallbackRun := .ok ⟨0, ""⟩
  noTextRun := .ok ⟨0, ""⟩

/-- The operator entered only blanks for the overlay text. -/
def envBlankOverlay : CombineEnv where
  scriptDir := "."
  overlayInput := "   "
  bundledFontExists := true
  systemFont := none
  hookProbe := .ok "2.5"
  demoProbe := .ok "3.5"
  outputProbe := .ok "6.0"
  mainRun := .ok ⟨1, "yy fontfile zz"⟩
  fallbackRun := .ok ⟨0, ""⟩
  noTextRun := .ok ⟨0, ""⟩

def emptyFs : Fs := fun _ => false

/-- A hooks folder holding one `.mp4` file. -/
def sampleHooks : Folder where
  name := "hooks"
  present := true
  glob := fun p => if p = "*.mp4" then ["clip.mp4", "other.mp4"] else []

/-- An empty, existing folder. -/
def emptyFolder (nm : String) : Folder where
  name := nm
  present := true
  glob := fun _ => []

/-- A run environment whose demo folder has no matching file. -/
def envNoDemo : RunEnv where
  ffmpegOnPath := true
  hooks := sampleHooks
  demo := emptyFolder "demo"
  audio := emptyFolder "audio"
  combineEnv := envFontOnly
  fs0 := emptyFs

/-! ## Lemmas about the chunk splitter -/

theorem splitGo_nil (fuel : Nat) (revAll : List Char) :
    splitGo fuel revAll [] = [] := by
  cases fuel <;> rfl

theorem emDashAhead_head {r : Char} {rs : List Char}
    (h : emDashAhead (r :: rs) = true) : r = '-' := by
  by_contra hr
  unfold emDashAhead at h
  rw [List.takeWhile_cons] at h
  simp [hr] at h

theorem getLast?_all_eq {l : List Char} {d : Char} (hne : l ≠ [])
    (hall : ∀ x ∈ l, x = d) : l.getLast? = some d := by
  rw [List.getLast?_eq_getLast l hne]
  exact congrArg some (hall _ (List.getLast_mem hne))

theorem wordGo_nil (revAll0 chunkRev : List Char) :
    wordGo revAll0 chunkRev [] = (chunkRev, []) := rfl

theorem wordGo_spec (revAll0 : List Char) (rest : List Char) :
    ∀ chunkRev : List Char,
      ((wordGo revAll0 chunkRev rest).1).reverse ++ (wordGo revAll0 chunkRev rest).2 =
        chunkRev.reverse ++ rest ∧
      (∃ ext, (wordGo revAll0 chunkRev rest).1 = ext ++ chunkRev ∧
        ∀ c ∈ ext, pyWsChar c = false) ∧
      ((∃ t, (wordGo revAll0 chunkRev rest).1 = '-' :: t) ∨
        (wordGo revAll0 chunkRev rest).2 = [] ∨
        (∃ a t, (wordGo revAll0 chunkRev rest).2 = a :: t ∧
          (pyWsChar a = true ∨ a = '-'))) := by
  induction rest with
  | nil =>
    intro chunkRev
    exact ⟨by simp [wordGo_nil], ⟨[], by simp [wordGo_nil], by simp⟩,
      Or.inr (Or.inl (by simp [wordGo_nil]))⟩
  | cons r rs ih =>
    intro chunkRev
    rw [wordGo]
    split_ifs with h1 h2 h3
    · simp only [Bool.and_eq_true, decide_eq_true_eq] at h1
      obtain ⟨⟨hr, _⟩, _⟩ := h1
      subst hr
      refine ⟨by simp, ⟨['-'], by simp, by simp [pyWsChar]⟩, Or.inl ⟨chunkRev, rfl⟩⟩
    · exact ⟨rfl, ⟨[], by simp, by simp⟩, Or.inr (Or.inr ⟨r, rs, rfl, Or.inl h2⟩)⟩
    · simp only [Bool.and_eq_true] at h3
      have hr : r = '-' := emDashAhead_head h3.2
      exact ⟨rfl, ⟨[], by simp, by simp⟩, Or.inr (Or.inr ⟨r, rs, rfl, Or.inr hr⟩)⟩
    · obtain ⟨ha, ⟨ext, hext, hchars⟩, hstop⟩ := ih (r :: chunkRev)
      have hrws : pyWsChar r = false := by
        cases hpw : pyWsChar r
        · rfl
        · exact absurd hpw h2
      refine ⟨by rw [ha]; simp, ⟨ext ++ [r], by rw [hext]; simp, ?_⟩, hstop⟩
      intro x hx
      rcases List.mem_append.mp hx with hx | hx
      · exact hchars x hx
      · rw [List.mem_singleton.mp hx]
        exact hrws

theorem splitGo_spec (fuel : Nat) :
    ∀ (cs revAll : List Char), cs.length ≤ fuel →
      (splitGo fuel revAll cs).flatten = cs ∧
      (∀ ch ∈ splitGo fuel revAll cs, ch ≠ [] ∧
        (ch.all pyWsChar = true ∨ ch.all (fun c => !pyWsChar c) = true)) ∧
      List.Chain' chunkRel (splitGo fuel revAll cs) := by
  induction fuel with
  | zero =>
    intro cs revAll hlen
    have : cs = [] := List.length_eq_zero.mp (Nat.le_zero.mp hlen)
    subst this
    exact ⟨rfl, by simp [splitGo], by simp [splitGo]⟩
  | succ fuel ih =>
    intro cs revAll hlen
    cases cs with
    | nil => exact ⟨rfl, by simp [splitGo_nil], by simp [splitGo_nil]⟩
    | cons c rest =>
      rw [splitGo]
      dsimp only
      simp only [List.length_cons] at hlen
      by_cases hws : pyWsChar c = true
      · rw [if_pos hws]
        have hrun_cons : (c :: rest).takeWhile pyWsChar =
            c :: rest.takeWhile pyWsChar := by
          rw [List.takeWhile_cons, if_pos hws]
        have happ : (c :: rest).takeWhile pyWsChar ++ (c :: rest).dropWhile pyWsChar =
            c :: rest := List.takeWhile_append_dropWhile pyWsChar (c :: rest)
        have hlen2 : ((c :: rest).dropWhile pyWsChar).length ≤ fuel := by
          have hl := congrArg List.length happ
          simp only [List.length_append, List.length_cons] at hl
          have htl : 1 ≤ ((c :: rest).takeWhile pyWsChar).length := by
            rw [hrun_cons]
            simp
          omega
        obtain ⟨ihflat, ihwf, ihchain⟩ := ih ((c :: rest).dropWhile pyWsChar) _ hlen2
        have hrun_all : ((c :: rest).takeWhile pyWsChar).all pyWsChar = true := by
          rw [List.all_eq_true]
          exact fun x hx => List.mem_takeWhile_imp hx
        refine ⟨?_, ?_, ?_⟩
        · rw [List.flatten_cons, ihflat, happ]
        · intro ch hch
          rcases List.mem_cons.mp hch with hch | hch
          · subst hch
            exact ⟨by rw [hrun_cons]; simp, Or.inl hrun_all⟩
          · exact ihwf ch hch
        · rw [List.chain'_cons']
          exact ⟨fun y _ => Or.inl hrun_all, ihchain⟩
      · rw [if_neg hws]
        split_ifs with hem
        · -- em-dash chunk: a run of two or more hyphens
          simp only [Bool.and_eq_true, decide_eq_true_eq] at hem
          have h2le : 2 ≤ ((c :: rest).takeWhile (fun x => x = '-')).length :=
            hem.1.2
          have hc : c = '-' := by
            by_contra hc
            rw [List.takeWhile_cons] at h2le
            simp [hc] at h2le
          have hhyph_all : ∀ x ∈ (c :: rest).takeWhile (fun x => x = '-'), x = '-' := by
            intro x hx
            have := List.mem_takeWhile_imp hx
            simpa using this
          have hhyph_ne : (c :: rest).takeWhile (fun x => x = '-') ≠ [] := by
            intro hnil
            rw [hnil] at h2le
            simp at h2le
          have happ : (c :: rest).takeWhile (fun x => x = '-') ++
              (c :: rest).dropWhile (fun x => x = '-') = c :: rest :=
            List.takeWhile_append_dropWhile _ (c :: rest)
          have hlen2 : ((c :: rest).dropWhile (fun x => x = '-')).length ≤ fuel := by
            have hl := congrArg List.length happ
            simp only [List.length_append, List.length_cons] at hl
            omega
          obtain ⟨ihflat, ihwf, ihchain⟩ :=
            ih ((c :: rest).dropWhile (fun x => x = '-')) _ hlen2
          refine ⟨?_, ?_, ?_⟩
          · rw [List.flatten_cons, ihflat, happ]
          · intro ch hch
            rcases List.mem_cons.mp hch with hch | hch
            · subst hch
              refine ⟨hhyph_ne, Or.inr ?_⟩
              rw [List.all_eq_true]
              intro x hx
              rw [hhyph_all x hx]
              rfl
            · exact ihwf ch hch
          · rw [List.chain'_cons']
            refine ⟨fun y _ => Or.inr (Or.inr (Or.inl ?_)), ihchain⟩
            exact getLast?_all_eq hhyph_ne hhyph_all
        · -- word chunk via the lazy scan
          obtain ⟨ha, ⟨ext, hext, hchars⟩, hstop⟩ := wordGo_spec revAll rest [c]
          have hres1_ne : (wordGo revAll [c] rest).1 ≠ [] := by
            rw [hext]
            exact List.append_ne_nil_of_right_ne_nil ext (by simp)
          have hcws : pyWsChar c = false := by
            cases hpw : pyWsChar c
            · rfl
            · exact absurd hpw hws
          have hres1_chars : ∀ x ∈ (wordGo revAll [c] rest).1, pyWsChar x = false := by
            intro x hx
            rw [hext] at hx
            rcases List.mem_append.mp hx with hx | hx
            · exact hchars x hx
            · rw [List.mem_singleton.mp hx]
              exact hcws
          have hflat1 : ((wordGo revAll [c] rest).1).reverse ++ (wordGo revAll [c] rest).2 =
              c :: rest := by
            rw [ha]; simp
          have hlen2 : ((wordGo revAll [c] rest).2).length ≤ fuel := by
            have hl := congrArg List.length hflat1
            simp only [List.length_append, List.length_reverse, List.length_cons] at hl
            have h1 : 1 ≤ ((wordGo revAll [c] rest).1).length := by
              rw [hext]
              simp only [List.length_append, List.length_singleton]
              omega
            omega
          obtain ⟨ihflat, ihwf, ihchain⟩ := ih ((wordGo revAll [c] rest).2) _ hlen2
          refine ⟨?_, ?_, ?_⟩
          · rw [List.flatten_cons, ihflat, hflat1]
          · intro ch hch
            rcases List.mem_cons.mp hch with hch | hch
            · subst hch
              refine ⟨by simpa using hres1_ne, Or.inr ?_⟩
              rw [List.all_eq_true]
              intro x hx
              rw [hres1_chars x (List.mem_reverse.mp hx)]
              rfl
            · exact ihwf ch hch
          · rw [List.chain'_cons']
            refine ⟨?_, ihchain⟩
            intro y hy
            have hyL2 : ∃ L2', splitGo fuel ((wordGo revAll [c] rest).1 ++ revAll)
                ((wordGo revAll [c] rest).2) = y :: L2' := by
              cases hL2 : splitGo fuel ((wordGo revAll [c] rest).1 ++ revAll)
                  ((wordGo revAll [c] rest).2) with
              | nil => rw [hL2] at hy; simp at hy
              | cons z L2' =>
                rw [hL2] at hy
                simp only [List.head?_cons, Option.mem_def, Option.some.injEq] at hy
                exact ⟨L2', by rw [hy]⟩
            obtain ⟨L2', hL2⟩ := hyL2
            rcases hstop with ⟨t, hres⟩ | hres2 | ⟨a, t, hres2, hor⟩
            · refine Or.inr (Or.inr (Or.inl ?_))
              rw [List.getLast?_reverse, hres]
              rfl
            · rw [hres2, splitGo_nil] at hL2
              exact absurd hL2 (by simp)
            · have hy_ne : y ≠ [] := (ihwf y (by rw [hL2]; simp)).1
              have hyhead : y.head? = some a := by
                rw [hL2, List.flatten_cons, hres2] at ihflat
                cases y with
                | nil => exact absurd rfl hy_ne
                | cons y0 ys =>
                  simp only [List.cons_append] at ihflat
                  rw [List.head?_cons]
                  exact congrArg some (List.cons.injEq .. ▸ ihflat).1
              rcases hor with hor | hor
              · refine Or.inr (Or.inl ?_)
                rcases ihwf y (by rw [hL2]; simp) with ⟨_, hall | hall⟩
                · exact hall
                · exfalso
                  have hmem : a ∈ y := by
                    cases y with
                    | nil => exact absurd rfl hy_ne
                    | cons y0 ys =>
                      rw [List.head?_cons, Option.some.injEq] at hyhead
                      rw [hyhead]
                      simp
                  rw [List.all_eq_true] at hall
                  have := hall a hmem
                  rw [hor] at this
                  simp at this
              · exact Or.inr (Or.inr (Or.inr (by rw [hyhead, hor])))

/-! ## Lemmas about the greedy line packer -/

theorem packChunks_append (w : Nat) (cs : List (List Char)) :
    ∀ n : Nat, (packChunks w n cs).1 ++ (packChunks w n cs).2 = cs := by
  induction cs with
  | nil => intro n; rfl
  | cons c rest ih =>
    intro n
    rw [packChunks]
    split_ifs with h
    · dsimp only
      rw [List.cons_append, ih (n + c.length)]
    · rfl

theorem packChunks_sum (w : Nat) (cs : List (List Char)) :
    ∀ n : Nat, (packChunks w n cs).1 = [] ∨
      n + (((packChunks w n cs).1).map List.length).sum ≤ w := by
  induction cs with
  | nil => intro n; exact Or.inl rfl
  | cons c rest ih =>
    intro n
    rw [packChunks]
    split_ifs with h
    · dsimp only
      right
      rcases ih (n + c.length) with h2 | h2
      · rw [h2]
        simp only [List.map_cons, List.map_nil, List.sum_cons, List.sum_nil]
        omega
      · simp only [List.map_cons, List.sum_cons]
        omega
    · exact Or.inl rfl

theorem packChunks_all (w : Nat) (cs : List (List Char)) :
    ∀ n : Nat, n + (cs.map List.length).sum ≤ w → packChunks w n cs = (cs, []) := by
  induction cs with
  | nil => intro n _; rfl
  | cons c rest ih =>
    intro n h
    simp only [List.map_cons, List.sum_cons] at h
    rw [packChunks, if_pos (by omega)]
    dsimp only
    rw [ih (n + c.length) (by omega)]

theorem packChunks_head_fit (w n : Nat) (c : List Char) (rest : List (List Char))
    (h : n + c.length ≤ w) : (packChunks w n (c :: rest)).1 ≠ [] := by
  rw [packChunks, if_pos h]
  simp

theorem dropTrailingWs_spec (l : List (List Char)) :
    dropTrailingWs l = l ∨
      ∃ c, isWsChunk c = true ∧ l = dropTrailingWs l ++ [c] := by
  unfold dropTrailingWs
  cases hl : l.getLast? with
  | none => exact Or.inl rfl
  | some c =>
    dsimp only
    by_cases hc : isWsChunk c = true
    · rw [if_pos hc]
      exact Or.inr ⟨c, hc, (List.dropLast_append_getLast? c (by simp [hl])).symm⟩
    · rw [if_neg hc]
      exact Or.inl rfl

theorem wrapGo_nil_chunks (w fuel : Nat) (acc : List (List Char)) :
    wrapGo w fuel [] acc = acc.reverse := by
  cases fuel <;> rfl

/-- One iteration of `_wrap_chunks` after the leading-whitespace drop:
the produced lines extend `acc`, cover the remaining chunks, and each new
line fits in `width` unless it is a single oversized chunk. -/
theorem wrapGo_iter (w : Nat) (fuel : Nat)
    (ih : ∀ (chunks acc : List (List Char)), chunks.length ≤ fuel →
      ∃ lns, wrapGo w fuel chunks acc = acc.reverse ++ lns ∧ Covers chunks lns ∧
        ∀ l ∈ lns, l.length ≤ w ∨ l ∈ chunks)
    (chunks1 acc : List (List Char)) (hlen : chunks1.length ≤ fuel + 1) :
    ∃ lns,
      (let pr := packChunks w 0 chunks1
       let hl : List (List Char) × List (List Char) :=
         match pr.2 with
         | d :: rest2 => if w < d.length && pr.1.isEmpty then ([d], rest2) else pr
         | [] => pr
       let curLine := dropTrailingWs hl.1
       let acc2 := if curLine.isEmpty then acc else curLine.flatten :: acc
       wrapGo w fuel hl.2 acc2) = acc.reverse ++ lns ∧ Covers chunks1 lns ∧
      ∀ l ∈ lns, l.length ≤ w ∨ l ∈ chunks1 := by
  have hpack := packChunks_append w chunks1 0
  -- the line chunks `L1` and the remainder `R`, with `chunks1 = L1 ++ R`
  -- and either `L1` is within the width or it is a single oversized chunk
  suffices hgen : ∀ L1 R : List (List Char), chunks1 = L1 ++ R →
      R.length ≤ fuel →
      (((L1.map List.length).sum ≤ w) ∨ ∃ d, L1 = [d] ∧ d ∈ chunks1) →
      ∃ lns,
        (let curLine := dropTrailingWs L1
         let acc2 := if curLine.isEmpty then acc else curLine.flatten :: acc
         wrapGo w fuel R acc2) = acc.reverse ++ lns ∧ Covers chunks1 lns ∧
        ∀ l ∈ lns, l.length ≤ w ∨ l ∈ chunks1 by
    dsimp only
    cases hpr2 : (packChunks w 0 chunks1).2 with
    | nil =>
      try rw [hpr2]
      dsimp only
      have hc1 : chunks1 = (packChunks w 0 chunks1).1 ++ [] := by
        rw [← hpr2, hpack]
      have hsum : (((packChunks w 0 chunks1).1).map List.length).sum ≤ w := by
        rcases packChunks_sum w chunks1 0 with h | h
        · rw [h]
          simp
        · omega
      exact hgen (packChunks w 0 chunks1).1 [] hc1 (by simp) (Or.inl hsum)
    | cons d rest2 =>
      try rw [hpr2]
      dsimp only
      by_cases hbig : (decide (w < d.length) && (packChunks w 0 chunks1).1.isEmpty) = true
      · rw [if_pos hbig]
        simp only [Bool.and_eq_true, List.isEmpty_iff, decide_eq_true_eq] at hbig
        have hc1 : chunks1 = [d] ++ rest2 := by
          rw [← hpack, hbig.2, hpr2]
          rfl
        have hlen2 : rest2.length ≤ fuel := by
          have := congrArg List.length hc1
          simp only [List.length_append, List.length_singleton] at this
          omega
        exact hgen [d] rest2 hc1 hlen2 (Or.inr ⟨d, rfl, by rw [hc1]; simp⟩)
      · rw [if_neg hbig]
        have hne : (packChunks w 0 chunks1).1 ≠ [] := by
          intro hnil
          have hc1 : chunks1 = d :: rest2 := by rw [← hpack, hnil, hpr2]; rfl
          have hfit : ¬ (0 + d.length ≤ w) := by
            intro hfit
            have := packChunks_head_fit w 0 d rest2 hfit
            rw [← hc1] at this
            exact this hnil
          have : (decide (w < d.length) && (packChunks w 0 chunks1).1.isEmpty) = true := by
            rw [hnil]
            simp only [List.isEmpty_nil, Bool.and_true, decide_eq_true_eq]
            omega
          exact hbig this
        have hc1 : chunks1 = (packChunks w 0 chunks1).1 ++ (d :: rest2) := by
          rw [← hpr2, hpack]
        have hlen2 : (d :: rest2).length ≤ fuel := by
          have hl := congrArg List.length hc1
          simp only [List.length_append] at hl
          have h1 : 1 ≤ ((packChunks w 0 chunks1).1).length :=
            Nat.one_le_iff_ne_zero.mpr (fun h0 => hne (List.length_eq_zero.mp h0))
          omega
        have hsum : ((((packChunks w 0 chunks1).1).map List.length).sum ≤ w) := by
          rcases packChunks_sum w chunks1 0 with h | h
          · exact absurd h hne
          · omega
        rw [hpr2]
        exact hgen (packChunks w 0 chunks1).1 (d :: rest2) hc1 hlen2 (Or.inl hsum)
  intro L1 R hc1 hlenR hfit
  dsimp only
  rcases dropTrailingWs_spec L1 with hdt | ⟨wsc, hwsc, hdt⟩
  · -- no trailing whitespace chunk dropped from the line
    rw [hdt]
    by_cases hemp : L1 = []
    · subst hemp
      obtain ⟨lns, heq, hcov, hlines⟩ := ih R acc hlenR
      simp only [List.nil_append] at hc1
      subst hc1
      exact ⟨lns, by simpa using heq, hcov, hlines⟩
    · obtain ⟨lns, heq, hcov, hlines⟩ := ih R (L1.flatten :: acc) hlenR
      refine ⟨L1.flatten :: lns, ?_, ?_, ?_⟩
      · rw [if_neg (by simpa [List.isEmpty_iff] using hemp)]
        rw [heq, List.reverse_cons]
        simp
      · rw [hc1]
        exact Covers.seg hemp hcov
      · intro l hl
        rcases List.mem_cons.mp hl with hl | hl
        · subst hl
          rcases hfit with hfit | ⟨d, hd, hdm⟩
          · exact Or.inl (by rw [List.length_flatten]; exact hfit)
          · exact Or.inr (by rw [hd]; simpa using hdm)
        · rcases hlines l hl with h | h
          · exact Or.inl h
          · exact Or.inr (by rw [hc1]; simp [h])
  · -- the trailing whitespace chunk wsc was dropped from the line
    by_cases hemp : dropTrailingWs L1 = []
    · rw [hemp]
      obtain ⟨lns, heq, hcov, hlines⟩ := ih R acc hlenR
      refine ⟨lns, ?_, ?_, ?_⟩
      · simpa using heq
      · have hchunks : chunks1 = wsc :: R := by
          rw [hc1, hdt, hemp]
          rfl
        rw [hchunks]
        exact Covers.drop hwsc hcov
      · intro l hl
        rcases hlines l hl with h | h
        · exact Or.inl h
        · exact Or.inr (by rw [hc1]; simp [h])
    · obtain ⟨lns, heq, hcov, hlines⟩ :=
        ih R ((dropTrailingWs L1).flatten :: acc) hlenR
      refine ⟨(dropTrailingWs L1).flatten :: lns, ?_, ?_, ?_⟩
      · rw [if_neg (by simpa [List.isEmpty_iff] using hemp)]
        rw [heq, List.reverse_cons]
        simp
      · have hchunks : chunks1 = dropTrailingWs L1 ++ ([wsc] ++ R) := by
          rw [hc1]
          nth_rewrite 1 [hdt]
          rw [List.append_assoc]
        rw [hchunks]
        exact Covers.seg hemp (Covers.drop hwsc hcov)
      · intro l hl
        rcases List.mem_cons.mp hl with hl | hl
        · subst hl
          rcases hfit with hfit | ⟨d, hd, hdm⟩
          · refine Or.inl ?_
            rw [List.length_flatten]
            have hsumD := congrArg (fun t => (List.map List.length t).sum) hdt
            simp only [List.map_append, List.sum_append] at hsumD
            omega
          · exfalso
            have hlen1 := congrArg List.length hdt
            have hlen2 := congrArg List.length hd
            simp only [List.length_append, List.length_singleton,
              List.length_cons, List.length_nil] at hlen1 hlen2
            exact hemp (List.length_eq_zero.mp (by omega))
        · rcases hlines l hl with h | h
          · exact Or.inl h
          · exact Or.inr (by rw [hc1]; simp [h])


theorem wrapGo_covers (w : Nat) (fuel : Nat) :
    ∀ (chunks acc : List (List Char)), chunks.length ≤ fuel →
      ∃ lns, wrapGo w fuel chunks acc = acc.reverse ++ lns ∧ Covers chunks lns ∧
        ∀ l ∈ lns, l.length ≤ w ∨ l ∈ chunks := by
  induction fuel with
  | zero =>
    intro chunks acc hlen
    have : chunks = [] := List.length_eq_zero.mp (Nat.le_zero.mp hlen)
    subst this
    exact ⟨[], by simp [wrapGo], Covers.nil, by simp⟩
  | succ fuel ih =>
    intro chunks acc hlen
    cases chunks with
    | nil => exact ⟨[], by simp [wrapGo_nil_chunks], Covers.nil, by simp⟩
    | cons c rest =>
      rw [wrapGo]
      try dsimp only
      simp only [List.length_cons] at hlen
      by_cases hdrop : (isWsChunk c && !acc.isEmpty) = true
      · rw [if_pos hdrop]
        have hcws : isWsChunk c = true := by
          rcases Bool.and_eq_true_iff.mp hdrop with ⟨h1, _⟩
          exact h1
        obtain ⟨lns, heq, hcov, hlines⟩ :=
          wrapGo_iter w fuel ih rest acc (by omega)
        refine ⟨lns, heq, Covers.drop hcws hcov, ?_⟩
        intro l hl
        rcases hlines l hl with h | h
        · exact Or.inl h
        · exact Or.inr (by simp [h])
      · rw [if_neg hdrop]
        obtain ⟨lns, heq, hcov, hlines⟩ :=
          wrapGo_iter w fuel ih (c :: rest) acc (by simp; omega)
        exact ⟨lns, heq, hcov, hlines⟩

/-! ## Single-line wrapping, whitespace munging, substring search -/

theorem wrapChunkLines_single (w : Nat) (c0 : List Char) (rest : List (List Char))
    (hsum : (((c0 :: rest)).map List.length).sum ≤ w)
    (hlast : ∀ d, (c0 :: rest).getLast? = some d → isWsChunk d = false) :
    wrapChunkLines w (c0 :: rest) = [(c0 :: rest).flatten] := by
  unfold wrapChunkLines
  rw [List.length_cons, wrapGo]
  try dsimp only
  rw [if_neg (by simp)]
  rw [packChunks_all w (c0 :: rest) 0 (by simpa using hsum)]
  try dsimp only
  have hdt : dropTrailingWs (c0 :: rest) = c0 :: rest := by
    unfold dropTrailingWs
    cases hg : (c0 :: rest).getLast? with
    | none => rfl
    | some d =>
      dsimp only
      rw [if_neg (by rw [hlast d hg]; simp)]
  rw [hdt]
  rw [if_neg (by simp)]
  rw [wrapGo_nil_chunks]
  rfl

theorem expandTabsGo_id (cs : List Char) (hns : ∀ c ∈ cs, c ≠ '\t') :
    ∀ col, expandTabsGo cs col = cs := by
  induction cs with
  | nil => intro col; rfl
  | cons c rest ih =>
    intro col
    rw [expandTabsGo, if_neg (hns c (by simp))]
    split_ifs with h
    · rw [ih (fun x hx => hns x (by simp [hx])) 0]
    · rw [ih (fun x hx => hns x (by simp [hx])) (col + 1)]

theorem mungeWhitespace_id (cs : List Char)
    (h : ∀ c ∈ cs, pyWsChar c = false ∨ c = ' ') :
    mungeWhitespace cs = cs := by
  unfold mungeWhitespace
  have hnt : ∀ c ∈ cs, c ≠ '\t' := by
    intro c hc heq
    rcases h c hc with hf | hsp
    · rw [heq] at hf
      simp [pyWsChar] at hf
    · rw [heq] at hsp
      exact absurd hsp (by decide)
  rw [expandTabsGo_id cs hnt 0]
  have hmap : ∀ (l : List Char), (∀ c ∈ l, pyWsChar c = false ∨ c = ' ') →
      l.map (fun c => if pyWsChar c then ' ' else c) = l := by
    intro l hl
    induction l with
    | nil => rfl
    | cons c rest ih =>
      rw [List.map_cons, ih (fun x hx => hl x (by simp [hx]))]
      congr 1
      rcases hl c (by simp) with hf | hsp
      · simp [hf]
      · subst hsp
        simp
  exact hmap cs h

theorem flatten_getLast? (L : List (List Char)) (d : List Char)
    (hL : L.getLast? = some d) (hd : d ≠ []) :
    L.flatten.getLast? = d.getLast? := by
  have hds := List.dropLast_append_getLast? d (show d ∈ L.getLast? from by simp [hL])
  rw [← hds, List.flatten_append]
  have : ([d] : List (List Char)).flatten = d := by simp
  rw [this]
  exact List.getLast?_append_of_ne_nil _ hd

theorem containsSubL_single_eq_false {a : Char} {cs : List Char}
    (h : a ∉ cs) : containsSubL [a] cs = false := by
  induction cs with
  | nil => rfl
  | cons c rest ih =>
    rw [containsSubL, ih (fun hm => h (List.mem_cons_of_mem c hm))]
    simp only [Bool.or_false, isPrefixL, Bool.and_eq_false_iff]
    left
    simp only [decide_eq_false_iff_not]
    intro he
    exact h (by rw [he]; exact List.mem_cons_self c rest)

/-! ## C3: line breaks and word splitting -/

/-- C3 counterexample to the claim as stated: this 27-character input
contains no whitespace at all, yet `wrap_text_for_margins` splits it across
two lines at the hyphen — the break is not at a whitespace boundary and the
hyphenated word is split. -/
theorem c3_counterexample :
    wrap_text_for_margins "abcdefgh-ijklmnopqrstuvwxyz" 1080 5 =
      "abcdefgh-\nijklmnopqrstuvwxyz" ∧
    23 < "abcdefgh-ijklmnopqrstuvwxyz".length ∧
    "abcdefgh-ijklmnopqrstuvwxyz".data.all (fun c => !pyWsChar c) = true ∧
    strContains (wrap_text_for_margins "abcdefgh-ijklmnopqrstuvwxyz" 1080 5)
      "\n" = true := by
  refine ⟨by decide, by decide, by decide, by decide⟩

/-- C3 (amended): `wrap_text_for_margins` breaks lines only at boundaries of
the chunk decomposition: every output line is the concatenation of whole
consecutive chunks (whitespace chunks may be dropped at the breaks), every
chunk is either a whitespace run or whitespace-free, and two adjacent
non-whitespace chunks always meet at a hyphen.  Hence a break is either at a
whitespace boundary or at a hyphen inside a hyphenated word (or em-dash);
no word is ever split elsewhere. -/
theorem c3_amended (text : String) (vw mp : Nat) :
    wrap_text_for_margins text vw mp = String.mk (List.intercalate ['\n']
      (wrapChunkLines 23 (splitChunksData (mungeWhitespace text.data)))) ∧
    Covers (splitChunksData (mungeWhitespace text.data))
      (wrapChunkLines 23 (splitChunksData (mungeWhitespace text.data))) ∧
    (∀ ch ∈ splitChunksData (mungeWhitespace text.data), ch ≠ [] ∧
      (ch.all pyWsChar = true ∨ ch.all (fun c => !pyWsChar c) = true)) ∧
    List.Chain' chunkRel (splitChunksData (mungeWhitespace text.data)) := by
  obtain ⟨_, hwf, hchain⟩ := splitGo_spec (mungeWhitespace text.data).length
    (mungeWhitespace text.data) [] (le_refl _)
  obtain ⟨lns, heq, hcov, _⟩ := wrapGo_covers 23
    (splitChunksData (mungeWhitespace text.data)).length
    (splitChunksData (mungeWhitespace text.data)) [] (le_refl _)
  refine ⟨rfl, ?_, hwf, hchain⟩
  unfold wrapChunkLines
  rw [heq]
  simpa using hcov

/-- C3 instance: the amended statement at a hyphenated input. -/
theorem c3_amended_witness :
    wrap_text_for_margins "go-go stop" 1080 5 = String.mk (List.intercalate ['\n']
      (wrapChunkLines 23 (splitChunksData (mungeWhitespace "go-go stop".data)))) ∧
    Covers (splitChunksData (mungeWhitespace "go-go stop".data))
      (wrapChunkLines 23 (splitChunksData (mungeWhitespace "go-go stop".data))) ∧
    (∀ ch ∈ splitChunksData (mungeWhitespace "go-go stop".data), ch ≠ [] ∧
      (ch.all pyWsChar = true ∨ ch.all (fun c => !pyWsChar c) = true)) ∧
    List.Chain' chunkRel (splitChunksData (mungeWhitespace "go-go stop".data)) :=
  c3_amended "go-go stop" 1080 5

/-! ## C4: short inputs -/

/-- C4 counterexample to the claim as stated: `"ab "` has length 3 ≤ 23 but
is not returned unchanged — the trailing whitespace is dropped. -/
theorem c4_counterexample :
    "ab ".length ≤ 23 ∧ wrap_text_for_margins "ab " 1080 5 ≠ "ab " := by
  refine ⟨by decide, by decide⟩

/-- C4 (amended): a string of length at most 23 is returned unchanged as a
single line provided it contains no whitespace other than plain spaces and
does not end in a space (otherwise tab expansion, newline replacement or
trailing-whitespace dropping alter it). -/
theorem c4_amended (text : String) (vw mp : Nat)
    (hlen : text.length ≤ 23)
    (hws : ∀ c ∈ text.data, pyWsChar c = false ∨ c = ' ')
    (hend : text.data.getLast? ≠ some ' ') :
    wrap_text_for_margins text vw mp = text ∧
    strContains (wrap_text_for_margins text vw mp) "\n" = false := by
  have hm : mungeWhitespace text.data = text.data := mungeWhitespace_id _ hws
  have hnonl : ('\n') ∉ text.data := by
    intro hmem
    rcases hws '\n' hmem with hf | hsp
    · simp [pyWsChar] at hf
    · exact absurd hsp (by decide)
  have hmain : wrap_text_for_margins text vw mp = text := by
    obtain ⟨hflat, hwf, _⟩ := splitGo_spec text.data.length text.data [] (le_refl _)
    show String.mk (textwrapFillData 23 text.data) = text
    unfold textwrapFillData textwrapWrapData splitChunksData
    rw [hm]
    cases hchunks : splitGo text.data.length [] text.data with
    | nil =>
      rw [hchunks] at hflat
      simp only [List.flatten_nil] at hflat
      have h0 : List.intercalate ['\n'] (wrapChunkLines 23 ([] : List (List Char))) =
          ([] : List Char) := rfl
      rw [h0, hflat]
    | cons c0 restc =>
      rw [hchunks] at hflat hwf
      have hsum : ((c0 :: restc).map List.length).sum ≤ 23 := by
        have := List.length_flatten (c0 :: restc)
        rw [hflat] at this
        have hlen2 : text.data.length ≤ 23 := hlen
        omega
      have hlast : ∀ d, (c0 :: restc).getLast? = some d → isWsChunk d = false := by
        intro d hd
        obtain ⟨hdne, hdall⟩ := hwf d (List.mem_of_mem_getLast? (by simp [hd]))
        rcases hdall with hall | hall
        · exfalso
          have hgl : text.data.getLast? = d.getLast? := by
            rw [← hflat]
            exact flatten_getLast? _ d hd hdne
          cases hx : d.getLast? with
          | none => exact hdne (by simpa using hx)
          | some x =>
            have hxmem : x ∈ d := List.mem_of_mem_getLast? (by simp [hx])
            have hxws : pyWsChar x = true := by
              rw [List.all_eq_true] at hall
              exact hall x hxmem
            have hxtext : x ∈ text.data :=
              List.mem_of_mem_getLast? (by simp [hgl, hx])
            rcases hws x hxtext with hf | hsp
            · rw [hf] at hxws
              exact Bool.false_ne_true hxws
            · subst hsp
              exact hend (by rw [hgl, hx])
        · unfold isWsChunk
          cases hall2 : d.all pyWsChar
          · rfl
          · exfalso
            obtain ⟨x, hxmem⟩ := List.exists_mem_of_ne_nil d hdne
            rw [List.all_eq_true] at hall hall2
            have h1 := hall x hxmem
            have h2 := hall2 x hxmem
            rw [h2] at h1
            simp at h1
      rw [wrapChunkLines_single 23 c0 restc hsum hlast]
      rw [hflat]
      have : List.intercalate ['\n'] [text.data] = text.data := by
        simp [List.intercalate]
      rw [this]
  refine ⟨hmain, ?_⟩
  rw [hmain]
  exact containsSubL_single_eq_false hnonl

/-- C4 instance: a plain short string passes through unchanged. -/
theorem c4_amended_witness :
    wrap_text_for_margins "hello world" 1080 5 = "hello world" ∧
    strContains (wrap_text_for_margins "hello world" 1080 5) "\n" = false :=
  c4_amended "hello world" 1080 5 (by decide) (by decide) (by decide)

/-! ## C7: the per-line budget -/

/-- C7 counterexample to the claim as stated: a 24-character unbreakable word
stays on one line of width 24, exceeding the 23-character budget, and
changing `margin_percent` (hence the claimed derived budget) does not change
the output at all. -/
theorem c7_counterexample :
    wrap_text_for_margins "aaaaaaaaaaaaaaaaaaaaaaaa" 1080 5 =
      "aaaaaaaaaaaaaaaaaaaaaaaa" ∧
    wrap_text_for_margins "aaaaaaaaaaaaaaaaaaaaaaaa" 1080 50 =
      "aaaaaaaaaaaaaaaaaaaaaaaa" ∧
    23 < "aaaaaaaaaaaaaaaaaaaaaaaa".length := by
  refine ⟨by decide, by decide, by decide⟩

/-- C7 (amended): the per-line budget is the fixed constant 23 — the
`video_width` and `margin_percent` arguments are ignored — and every output
line fits the 23-character budget unless it consists of a single unbreakable
chunk longer than the budget. -/
theorem c7_amended (text : String) (vw mp vw2 mp2 : Nat) :
    wrap_text_for_margins text vw mp = wrap_text_for_margins text vw2 mp2 ∧
    (∀ l ∈ wrapChunkLines 23 (splitChunksData (mungeWhitespace text.data)),
      l.length ≤ 23 ∨ l ∈ splitChunksData (mungeWhitespace text.data)) ∧
    wrap_text_for_margins text vw mp = String.mk (List.intercalate ['\n']
      (wrapChunkLines 23 (splitChunksData (mungeWhitespace text.data)))) := by
  obtain ⟨lns, heq, _, hlines⟩ := wrapGo_covers 23
    (splitChunksData (mungeWhitespace text.data)).length
    (splitChunksData (mungeWhitespace text.data)) [] (le_refl _)
  refine ⟨rfl, ?_, rfl⟩
  unfold wrapChunkLines
  rw [heq]
  intro l hl
  exact hlines l (by simpa using hl)

/-- C7 instance: the amended statement at a 30-character word. -/
theorem c7_amended_witness :
    wrap_text_for_margins "aaaaaaaaaaaaaaaaaaaaaaaaaaaaaa" 500 7 =
      wrap_text_for_margins "aaaaaaaaaaaaaaaaaaaaaaaaaaaaaa" 1080 5 ∧
    (∀ l ∈ wrapChunkLines 23
        (splitChunksData (mungeWhitespace "aaaaaaaaaaaaaaaaaaaaaaaaaaaaaa".data)),
      l.length ≤ 23 ∨
        l ∈ splitChunksData (mungeWhitespace "aaaaaaaaaaaaaaaaaaaaaaaaaaaaaa".data)) ∧
    wrap_text_for_margins "aaaaaaaaaaaaaaaaaaaaaaaaaaaaaa" 500 7 =
      String.mk (List.intercalate ['\n'] (wrapChunkLines 23
        (splitChunksData (mungeWhitespace "aaaaaaaaaaaaaaaaaaaaaaaaaaaaaa".data)))) :=
  c7_amended "aaaaaaaaaaaaaaaaaaaaaaaaaaaaaa" 500 7 1080 5

/-! ## Lemmas about `find_file` -/

theorem findFirstExt_append (folder : Folder) (pre post : List String) (ext : String)
    (f : String) (fs : List String)
    (hpre : ∀ e ∈ pre, folder.glob ("*" ++ e) = [])
    (hext : folder.glob ("*" ++ ext) = f :: fs) :
    findFirstExt folder (pre ++ ext :: post) = some f := by
  induction pre with
  | nil => simp [findFirstExt, hext]
  | cons e rest ih =>
    have he : folder.glob ("*" ++ e) = [] := hpre e (by simp)
    simp only [List.cons_append, findFirstExt, he]
    exact ih fun x hx => hpre x (by simp [hx])

/-! ## C5: discovery returns the first entry of the first non-empty glob -/

/-- C5: for a present folder, `find_file` scans the extension list in order
and returns the first entry of the first non-empty glob result (and makes no
missing-file report). -/
theorem c5_find_file_first (folder : Folder) (pre post : List String) (ext : String)
    (f : String) (fs : List String)
    (hpresent : folder.present = true)
    (hpre : ∀ e ∈ pre, folder.glob ("*" ++ e) = [])
    (hext : folder.glob ("*" ++ ext) = f :: fs) :
    find_file folder (pre ++ ext :: post) = (some f, []) := by
  unfold find_file
  rw [hpresent]
  simp [findFirstExt_append folder pre post ext f fs hpre hext]

/-- C5 instance: on a folder whose `*.mp4` glob returns two files, discovery
returns the first one. -/
theorem c5_find_file_first_witness :
    find_file sampleHooks video_extensions = (some "clip.mp4", []) :=
  c5_find_file_first sampleHooks [] [".mov", ".avi", ".mkv", ".webm"] ".mp4"
    "clip.mp4" ["other.mp4"] rfl (by intro e he; simp at he) rfl

/-! ## C8: process exit code -/

/-- C8: the process exit code is `0` exactly when `run` returned `True`, and
`1` exactly when it returned `False` (missing dependency, missing input and
external-tool failure all surface as `run = False`). -/
theorem c8_exit_code (env : RunEnv) :
    (mainExitCode env = 0 ↔ (run env).1 = true) ∧
    (mainExitCode env = 1 ↔ (run env).1 = false) := by
  unfold mainExitCode
  by_cases h : (run env).1 <;> simp [h]

/-! ## C6: a failed discovery step aborts the run before FFmpeg runs -/

theorem find_file_cases (folder : Folder) (exts : List String) :
    (∃ f, find_file folder exts = (some f, [])) ∨
      find_file folder exts = (none, [.reportMissing folder.name]) := by
  unfold find_file
  split
  · exact Or.inr rfl
  · cases hf : findFirstExt folder exts with
    | none => exact Or.inr (by simp)
    | some f => exact Or.inl ⟨f, by simp⟩

/-- C6: when any of the three discovery steps yields no file, `run` returns
`False`, a missing-file/folder report is emitted, and neither FFmpeg nor
ffprobe is ever invoked. -/
theorem c6_discovery_abort (env : RunEnv)
    (hff : env.ffmpegOnPath = true)
    (h : (find_file env.hooks video_extensions).1 = none ∨
         (find_file env.demo video_extensions).1 = none ∨
         (find_file env.audio audio_extensions).1 = none) :
    (run env).1 = false ∧
    (∃ folder, Ev.reportMissing folder ∈ (run env).2) ∧
    (∀ fc, Ev.ffmpegMain fc ∉ (run env).2 ∧ Ev.ffmpegFallback fc ∉ (run env).2 ∧
      Ev.ffmpegNoText fc ∉ (run env).2) ∧
    (∀ p, Ev.ffprobe p ∉ (run env).2) := by
  rcases find_file_cases env.hooks video_extensions with ⟨f1, h1⟩ | h1
  · rcases find_file_cases env.demo video_extensions with ⟨f2, h2⟩ | h2
    · rcases find_file_cases env.audio audio_extensions with ⟨f3, h3⟩ | h3
      · exfalso
        rcases h with hx | hx | hx <;> simp [h1, h2, h3] at hx
      · exact ⟨by simp [run, hff, h1, h2, h3], ⟨env.audio.name, by simp [run, hff, h1, h2, h3]⟩,
          fun fc => by simp [run, hff, h1, h2, h3], fun p => by simp [run, hff, h1, h2, h3]⟩
    · exact ⟨by simp [run, hff, h1, h2], ⟨env.demo.name, by simp [run, hff, h1, h2]⟩,
        fun fc => by simp [run, hff, h1, h2], fun p => by simp [run, hff, h1, h2]⟩
  · exact ⟨by simp [run, hff, h1], ⟨env.hooks.name, by simp [run, hff, h1]⟩,
      fun fc => by simp [run, hff, h1], fun p => by simp [run, hff, h1]⟩

/-- C6 instance: an empty demo folder aborts the run with a report and no
external-tool invocation. -/
theorem c6_discovery_abort_witness :
    (run envNoDemo).1 = false ∧
    (∃ folder, Ev.reportMissing folder ∈ (run envNoDemo).2) ∧
    (∀ fc, Ev.ffmpegMain fc ∉ (run envNoDemo).2 ∧
      Ev.ffmpegFallback fc ∉ (run envNoDemo).2 ∧
      Ev.ffmpegNoText fc ∉ (run envNoDemo).2) ∧
    (∀ p, Ev.ffprobe p ∉ (run envNoDemo).2) :=
  c6_discovery_abort envNoDemo rfl (Or.inr (Or.inl (by decide)))

/-! ## Lemmas about the file state and the event traces of `combine_videos` -/

theorem unlinkIfExists_self (fs : Fs) (p : String) :
    (unlinkIfExists fs p).1 p = false := by
  unfold unlinkIfExists
  split
  · simp [fsSet]
  · rename_i h
    simpa using h

theorem unlinkIfExists_mono (fs : Fs) (p q : String) :
    (unlinkIfExists fs p).1 q = true → fs q = true := by
  unfold unlinkIfExists
  split
  · intro h
    by_cases hq : q = p
    · simp [fsSet, hq] at h
    · simpa [fsSet, hq] using h
  · exact fun h => h

theorem unlinkIfExists_evs (fs : Fs) (p : String) :
    ∀ e ∈ (unlinkIfExists fs p).2, e = Ev.unlink p := by
  unfold unlinkIfExists
  split <;> simp

theorem foldl_lineCleanup_mono (env : CombineEnv) (l : List Nat)
    (st : Fs × List Ev) (q : String) :
    (l.foldl (lineCleanupStep env) st).1 q = true → st.1 q = true := by
  induction l generalizing st with
  | nil => exact fun h => h
  | cons i rest ih =>
    intro h
    rw [List.foldl_cons] at h
    have h2 := ih (lineCleanupStep env st i) h
    simp only [lineCleanupStep] at h2
    exact unlinkIfExists_mono st.1 (lineFilePath env i) q h2

theorem foldl_lineCleanup_evs (env : CombineEnv) (l : List Nat)
    (st : Fs × List Ev) :
    ∀ e ∈ (l.foldl (lineCleanupStep env) st).2, e ∈ st.2 ∨ ∃ p, e = Ev.unlink p := by
  induction l generalizing st with
  | nil => exact fun e he => Or.inl he
  | cons i rest ih =>
    intro e he
    rw [List.foldl_cons] at he
    rcases ih (lineCleanupStep env st i) e he with hmem | hl
    · simp only [lineCleanupStep, List.mem_append] at hmem
      rcases hmem with h | h
      · exact Or.inl h
      · exact Or.inr ⟨lineFilePath env i, unlinkIfExists_evs _ _ e h⟩
    · exact Or.inr hl

theorem cleanupLineFiles_mono (env : CombineEnv) (fs : Fs) (q : String) :
    (cleanupLineFiles env fs).1 q = true → fs q = true :=
  foldl_lineCleanup_mono env (List.range 10) (fs, []) q

theorem cleanupLineFiles_evs (env : CombineEnv) (fs : Fs) :
    ∀ e ∈ (cleanupLineFiles env fs).2, ∃ p, e = Ev.unlink p := by
  intro e he
  rcases foldl_lineCleanup_evs env (List.range 10) (fs, []) e he with h | h
  · simp at h
  · exact h

theorem mainCleanup_text (env : CombineEnv) (fs : Fs) :
    (mainCleanup env fs).1 (textFilePath env) = false := by
  unfold mainCleanup
  by_contra h
  have h1 : (cleanupLineFiles env (unlinkIfExists fs (textFilePath env)).1).1
      (textFilePath env) = true := by
    revert h
    cases (cleanupLineFiles env (unlinkIfExists fs (textFilePath env)).1).1
      (textFilePath env) <;> simp
  have h2 := cleanupLineFiles_mono env _ _ h1
  rw [unlinkIfExists_self] at h2
  exact Bool.false_ne_true h2

theorem mainCleanup_evs (env : CombineEnv) (fs : Fs) :
    ∀ e ∈ (mainCleanup env fs).2, ∃ p, e = Ev.unlink p := by
  unfold mainCleanup
  intro e he
  simp only [List.mem_append] at he
  rcases he with h | h
  · exact ⟨textFilePath env, unlinkIfExists_evs _ _ e h⟩
  · exact cleanupLineFiles_evs env _ e h

theorem noText_fs (env : CombineEnv) (fs : Fs) (d : PyNum) :
    (combine_videos_no_text env fs d).fs = fs := by
  unfold combine_videos_no_text
  cases env.noTextRun <;> simp only
  split <;> rfl

theorem noText_evs (env : CombineEnv) (fs : Fs) (d : PyNum) :
    ∀ e ∈ (combine_videos_no_text env fs d).evs,
      e = Ev.ffmpegNoText (filterVideoNoText ++ filterAudio (pyNumStr d)) ∨
        e = Ev.ffprobe (outputPath env) := by
  unfold combine_videos_no_text
  cases env.noTextRun with
  | exn => simp
  | ok r =>
    simp only
    split <;> simp

theorem fallback_fs_text (env : CombineEnv) (fs : Fs) (ot : String) (d : PyNum) :
    (combine_videos_fallback env fs ot d).fs (textFilePath env) = false := by
  unfold combine_videos_fallback
  cases env.fallbackRun with
  | exn => exact unlinkIfExists_self _ _
  | ok r =>
    simp only
    split
    · exact unlinkIfExists_self _ _
    · rw [noText_fs]
      exact unlinkIfExists_self _ _

theorem fallback_writes (env : CombineEnv) (fs : Fs) (ot : String) (d : PyNum)
    (p c : String) :
    Ev.writeTextFile p c ∈ (combine_videos_fallback env fs ot d).evs →
      p = textFilePath env := by
  unfold combine_videos_fallback
  cases env.fallbackRun with
  | exn =>
    intro h
    simp only [List.mem_append, List.mem_singleton] at h
    rcases h with (h | h) | h
    · exact (Ev.writeTextFile.injEq .. ▸ h).1
    · exact absurd h (by simp)
    · have := unlinkIfExists_evs _ _ _ h
      simp at this
  | ok r =>
    simp only
    split
    · intro h
      simp only [List.mem_append, List.mem_singleton] at h
      rcases h with ((h | h) | h) | h
      · exact (Ev.writeTextFile.injEq .. ▸ h).1
      · exact absurd h (by simp)
      · have := unlinkIfExists_evs _ _ _ h
        simp at this
      · simp at h
    · intro h
      simp only [List.mem_append, List.mem_singleton] at h
      rcases h with ((h | h) | h) | h
      · exact (Ev.writeTextFile.injEq .. ▸ h).1
      · exact absurd h (by simp)
      · have := unlinkIfExists_evs _ _ _ h
        simp at this
      · rcases noText_evs env _ d _ h with h2 | h2 <;> simp at h2

theorem combine_fs_text (env : CombineEnv) (hp dp : String) (fs : Fs)
    (hov : pyStrip env.overlayInput ≠ "") :
    (combine_videos env hp dp fs).fs (textFilePath env) = false := by
  unfold combine_videos
  simp only [hov, if_true, ne_eq, not_false_eq_true, ite_true]
  cases env.mainRun with
  | ok r =>
    simp only
    split
    · exact mainCleanup_text env _
    · split
      · exact mainCleanup_text env _
      · split
        · exact fallback_fs_text env _ _ _
        · exact mainCleanup_text env _
  | exn => exact mainCleanup_text env _

theorem combine_writes (env : CombineEnv) (hp dp : String) (fs : Fs) (p c : String) :
    Ev.writeTextFile p c ∈ (combine_videos env hp dp fs).evs →
      p = textFilePath env ∧ pyStrip env.overlayInput ≠ "" := by
  intro h
  unfold combine_videos at h
  by_cases hov : pyStrip env.overlayInput ≠ ""
  · refine ⟨?_, hov⟩
    simp only [hov, if_true, ne_eq, not_false_eq_true, ite_true] at h
    cases henv : env.mainRun with
    | ok r =>
      rw [henv] at h
      simp only at h
      split at h
      · simp at h
        rcases h with ⟨h1, _⟩ | h
        · exact h1
        · rcases mainCleanup_evs env _ _ h with ⟨q, hq⟩
          simp at hq
      · split at h
        · simp at h
          rcases h with ⟨h1, _⟩ | h
          · exact h1
          · rcases mainCleanup_evs env _ _ h with ⟨q, hq⟩
            simp at hq
        · split at h
          · simp at h
            rcases h with ⟨h1, _⟩ | h | h
            · exact h1
            · rcases mainCleanup_evs env _ _ h with ⟨q, hq⟩
              simp at hq
            · exact fallback_writes env _ _ _ p c h
          · simp at h
            rcases h with ⟨h1, _⟩ | h
            · exact h1
            · rcases mainCleanup_evs env _ _ h with ⟨q, hq⟩
              simp at hq
    | exn =>
      rw [henv] at h
      simp only at h
      simp at h
      rcases h with ⟨h1, _⟩ | h | h
      · exact h1
      · have := unlinkIfExists_evs _ _ _ h
        simp at this
      · rcases cleanupLineFiles_evs env _ _ h with ⟨q, hq⟩
        simp at hq
  · exfalso
    rw [not_ne_iff] at hov
    simp only [hov, ne_eq, not_true_eq_false, if_false, ite_false] at h
    cases henv : env.mainRun with
    | ok r =>
      rw [henv] at h
      simp only at h
      split at h
      · simp at h
      · split at h
        · simp at h
        · split at h
          · simp at h
          · simp at h
    | exn =>
      rw [henv] at h
      simp only at h
      simp at h
      rcases cleanupLineFiles_evs env _ _ h with ⟨q, hq⟩
      simp at hq

/-! ## C2: temp text files never remain after `combine_videos` returns -/

/-- C2: on every exit path (success, generic failure, font fallback, no-text
fallback, or an exception during subprocess handling), any overlay temp file
written during the run no longer exists when `combine_videos` returns. -/
theorem c2_temp_files_cleaned (env : CombineEnv) (hp dp : String) (fs : Fs)
    (p c : String)
    (hw : Ev.writeTextFile p c ∈ (combine_videos env hp dp fs).evs) :
    (combine_videos env hp dp fs).fs p = false := by
  obtain ⟨hp', hov⟩ := combine_writes env hp dp fs p c hw
  rw [hp']
  exact combine_fs_text env hp dp fs hov

/-- C2 instance: a run that wrote the overlay file (and went through the font
fallback) leaves no overlay file behind. -/
theorem c2_temp_files_cleaned_witness :
    (combine_videos envFontOnly "h.mp4" "d.mp4" emptyFs).fs
      (textFilePath envFontOnly) = false :=
  c2_temp_files_cleaned envFontOnly "h.mp4" "d.mp4" emptyFs
    (textFilePath envFontOnly) (wrap_text_for_margins "hi" 1080 5) (by decide)

/-! ## C10: an overlay that strips to empty takes the no-overlay branch -/

theorem combine_empty_overlay_evs (env : CombineEnv) (hp dp : String) (fs : Fs)
    (hov : pyStrip env.overlayInput = "") :
    ∃ tail, (combine_videos env hp dp fs).evs =
      Ev.ffprobe hp :: Ev.ffprobe dp ::
        Ev.ffmpegMain (filterVideoNoText ++
          filterAudio (pyNumStr (get_video_duration env.hookProbe))) :: tail ∧
      ∀ e ∈ tail, e = Ev.ffprobe (outputPath env) ∨ ∃ q, e = Ev.unlink q := by
  unfold combine_videos
  simp only [hov, ne_eq, not_true_eq_false, if_false, ite_false]
  cases env.mainRun with
  | ok r =>
    simp only
    split
    · exact ⟨[.ffprobe (outputPath env)], by simp, by simp⟩
    · split
      · exact ⟨[], by simp, by simp⟩
      · split
        · exact ⟨[], by simp, by simp⟩
        · exact ⟨[], by simp, by simp⟩
  | exn =>
    refine ⟨(cleanupLineFiles env fs).2, by simp, ?_⟩
    intro e he
    exact Or.inr (cleanupLineFiles_evs env fs e he)

/-- C10: when the operator's overlay text is empty after stripping,
`combine_videos` writes no temp text file, its single FFmpeg invocation uses
the drawtext-free filter graph, and neither the font fallback nor the
no-text fallback can be entered. -/
theorem c10_empty_overlay (env : CombineEnv) (hp dp : String) (fs : Fs)
    (hov : pyStrip env.overlayInput = "") :
    (∀ p c, Ev.writeTextFile p c ∉ (combine_videos env hp dp fs).evs) ∧
    (∀ fc, Ev.ffmpegMain fc ∈ (combine_videos env hp dp fs).evs →
      fc = filterVideoNoText ++
        filterAudio (pyNumStr (get_video_duration env.hookProbe))) ∧
    (∀ fc, Ev.ffmpegFallback fc ∉ (combine_videos env hp dp fs).evs) ∧
    (∀ fc, Ev.ffmpegNoText fc ∉ (combine_videos env hp dp fs).evs) := by
  obtain ⟨tail, hevs, htail⟩ := combine_empty_overlay_evs env hp dp fs hov
  refine ⟨fun p c hmem => (combine_writes env hp dp fs p c hmem).2 hov, ?_, ?_, ?_⟩
  · intro fc h
    rw [hevs] at h
    simp at h
    rcases h with h | h
    · exact h
    · rcases htail _ h with h2 | ⟨q, h2⟩ <;> simp at h2
  · intro fc h
    rw [hevs] at h
    simp at h
    rcases htail _ h with h2 | ⟨q, h2⟩ <;> simp at h2
  · intro fc h
    rw [hevs] at h
    simp at h
    rcases htail _ h with h2 | ⟨q, h2⟩ <;> simp at h2

/-! ## C9: a failed probe yields duration 0, used as the silence duration -/

theorem fallback_no_main (env : CombineEnv) (fs : Fs) (ot : String) (d : PyNum)
    (fc : String) :
    Ev.ffmpegMain fc ∉ (combine_videos_fallback env fs ot d).evs := by
  unfold combine_videos_fallback
  cases env.fallbackRun with
  | exn =>
    intro h
    simp at h
    have := unlinkIfExists_evs _ _ _ h
    simp at this
  | ok r =>
    simp only
    split
    · intro h
      simp at h
      have := unlinkIfExists_evs _ _ _ h
      simp at this
    · intro h
      simp at h
      rcases h with h | h
      · have := unlinkIfExists_evs _ _ _ h
        simp at this
      · rcases noText_evs env _ d _ h with h2 | h2 <;> simp at h2

theorem combine_main_filter (env : CombineEnv) (hp dp : String) (fs : Fs) (fc : String) :
    Ev.ffmpegMain fc ∈ (combine_videos env hp dp fs).evs →
      fc = (if pyStrip env.overlayInput ≠ "" then
              filterVideoWithText (drawtextFilter (textFilePath env) (fontParamOf env))
            else filterVideoNoText) ++
        filterAudio (pyNumStr (get_video_duration env.hookProbe)) := by
  intro h
  by_cases hov : pyStrip env.overlayInput ≠ ""
  · rw [if_pos hov]
    unfold combine_videos at h
    simp only [hov, if_true, ne_eq, not_false_eq_true, ite_true] at h
    cases henv : env.mainRun with
    | ok r =>
      rw [henv] at h
      simp only at h
      split at h
      · simp at h
        rcases h with h | h
        · exact h
        · rcases mainCleanup_evs env _ _ h with ⟨q, hq⟩
          simp at hq
      · split at h
        · simp at h
          rcases h with h | h
          · exact h
          · rcases mainCleanup_evs env _ _ h with ⟨q, hq⟩
            simp at hq
        · split at h
          · simp at h
            rcases h with h | h | h
            · exact h
            · rcases mainCleanup_evs env _ _ h with ⟨q, hq⟩
              simp at hq
            · exact absurd h (fallback_no_main env _ _ _ fc)
          · simp at h
            rcases h with h | h
            · exact h
            · rcases mainCleanup_evs env _ _ h with ⟨q, hq⟩
              simp at hq
    | exn =>
      rw [henv] at h
      simp only at h
      simp at h
      rcases h with h | h | h
      · exact h
      · have := unlinkIfExists_evs _ _ _ h
        simp at this
      · rcases cleanupLineFiles_evs env _ _ h with ⟨q, hq⟩
        simp at hq
  · rw [if_neg hov]
    rw [not_ne_iff] at hov
    obtain ⟨tail, hevs, htail⟩ := combine_empty_overlay_evs env hp dp fs hov
    rw [hevs] at h
    simp at h
    rcases h with h | h
    · exact h
    · rcases htail _ h with h2 | ⟨q, h2⟩ <;> simp at h2

/-- C9: `get_video_duration` never raises: when the probe raises or its
output does not parse as a float, it returns the int `0`, whose rendering
`0` is then spliced into the `aevalsrc=0:d=...` silence source of every
filter graph handed to the main FFmpeg invocation. -/
theorem c9_duration_zero (env : CombineEnv) (hp dp : String) (fs : Fs)
    (h : env.hookProbe = .exn ∨
      ∃ out, env.hookProbe = .ok out ∧ pyFloat (pyStrip out) = none) :
    get_video_duration env.hookProbe = .ofInt 0 ∧
    pyNumStr (get_video_duration env.hookProbe) = "0" ∧
    (∀ fc, Ev.ffmpegMain fc ∈ (combine_videos env hp dp fs).evs →
      ∃ v, fc = v ++ filterAudio "0") := by
  have h0 : get_video_duration env.hookProbe = .ofInt 0 := by
    rcases h with h | ⟨out, hout, hparse⟩
    · rw [h]
      rfl
    · rw [hout]
      simp [get_video_duration, hparse]
  refine ⟨h0, by rw [h0]; rfl, ?_⟩
  intro fc hm
  have hf := combine_main_filter env hp dp fs fc hm
  rw [h0] at hf
  exact ⟨_, hf⟩

/-- C9 instance: a probe printing unparsable output leads to a `d=0` silence
source in the constructed filter graph. -/
theorem c9_duration_zero_witness :
    get_video_duration envBadProbe.hookProbe = .ofInt 0 ∧
    pyNumStr (get_video_duration envBadProbe.hookProbe) = "0" ∧
    (∀ fc, Ev.ffmpegMain fc ∈ (combine_videos envBadProbe "h.mp4" "d.mp4" emptyFs).evs →
      ∃ v, fc = v ++ filterAudio "0") :=
  c9_duration_zero envBadProbe "h.mp4" "d.mp4" emptyFs
    (Or.inr ⟨"garbage", rfl, by decide⟩)

/-! ## C1: the font-fallback chain -/

theorem filter_no_match {l : List Ev} {f : Ev → Bool}
    (h : ∀ e ∈ l, f e = false) : l.filter f = [] := by
  induction l with
  | nil => rfl
  | cons a t ih =>
    have ha := h a (by simp)
    rw [List.filter_cons, ha]
    simp only [Bool.false_eq_true, if_false]
    exact ih fun e he => h e (by simp [he])

theorem filter_unlinkIfExists (fs : Fs) (p : String) (f : Ev → Bool)
    (hf : ∀ q, f (Ev.unlink q) = false) :
    ((unlinkIfExists fs p).2).filter f = [] :=
  filter_no_match fun e he => by rw [unlinkIfExists_evs fs p e he]; exact hf p

theorem filter_mainCleanup (env : CombineEnv) (fs : Fs) (f : Ev → Bool)
    (hf : ∀ q, f (Ev.unlink q) = false) :
    ((mainCleanup env fs).2).filter f = [] :=
  filter_no_match fun e he => by
    obtain ⟨q, hq⟩ := mainCleanup_evs env fs e he
    rw [hq]; exact hf q

theorem noText_filter_fallbackEv (env : CombineEnv) (fs : Fs) (d : PyNum) :
    (combine_videos_no_text env fs d).evs.filter isFallbackEv = [] :=
  filter_no_match fun e he => by
    rcases noText_evs env fs d e he with h | h <;> rw [h] <;> rfl

theorem noText_filter_noTextEv (env : CombineEnv) (fs : Fs) (d : PyNum) :
    (combine_videos_no_text env fs d).evs.filter isNoTextEv =
      [Ev.ffmpegNoText (filterVideoNoText ++ filterAudio (pyNumStr d))] := by
  unfold combine_videos_no_text
  cases env.noTextRun with
  | exn => simp [isNoTextEv]
  | ok r =>
    simp only
    split <;> simp [isNoTextEv]

theorem fallback_filter_fallbackEv (env : CombineEnv) (fs : Fs) (ot : String)
    (d : PyNum) :
    (combine_videos_fallback env fs ot d).evs.filter isFallbackEv =
      [Ev.ffmpegFallback (filterVideoWithText (drawtextFilter (textFilePath env) "") ++
        filterAudio (pyNumStr d))] := by
  unfold combine_videos_fallback
  cases env.fallbackRun with
  | exn =>
    simp only [List.filter_append]
    rw [filter_unlinkIfExists _ _ _ (fun q => rfl)]
    simp [isFallbackEv]
  | ok r =>
    simp only
    split
    · simp only [List.filter_append]
      rw [filter_unlinkIfExists _ _ _ (fun q => rfl)]
      simp [isFallbackEv]
    · simp only [List.filter_append]
      rw [filter_unlinkIfExists _ _ _ (fun q => rfl),
        noText_filter_fallbackEv]
      simp [isFallbackEv]

theorem fallback_filter_noTextEv (env : CombineEnv) (fs : Fs) (ot : String)
    (d : PyNum) :
    (combine_videos_fallback env fs ot d).evs.filter isNoTextEv =
      (match env.fallbackRun with
       | .ok r => if r.returncode = 0 then []
                  else [Ev.ffmpegNoText (filterVideoNoText ++ filterAudio (pyNumStr d))]
       | .exn => []) := by
  unfold combine_videos_fallback
  cases env.fallbackRun with
  | exn =>
    simp only [List.filter_append]
    rw [filter_unlinkIfExists _ _ _ (fun q => rfl)]
    simp [isNoTextEv]
  | ok r =>
    simp only
    split
    · rename_i hr
      simp only [List.filter_append, hr, if_true]
      rw [filter_unlinkIfExists _ _ _ (fun q => rfl)]
      simp [isNoTextEv]
    · rename_i hr
      simp only [List.filter_append, if_neg hr]
      rw [filter_unlinkIfExists _ _ _ (fun q => rfl),
        noText_filter_noTextEv]
      simp [isNoTextEv]

theorem fallback_filter_mainEv (env : CombineEnv) (fs : Fs) (ot : String)
    (d : PyNum) :
    (combine_videos_fallback env fs ot d).evs.filter isMainEv = [] :=
  filter_no_match fun e he => by
    cases e
    case ffmpegMain a => exact absurd he (fallback_no_main env _ _ _ a)
    all_goals rfl

/-- C1 counterexample to the claim as stated: FFmpeg exits non-zero with a
diagnostic that mentions `fontfile` (a font problem) but also `No such
filter`; `combine_videos` does not retry at all — the `No such filter`
branch takes precedence — and simply fails. -/
theorem c1_counterexample :
    pyStrip envFontBoth.overlayInput ≠ "" ∧
    envFontBoth.mainRun = .ok ⟨1, "xx No such filter yy fontfile zz"⟩ ∧
    strContains "xx No such filter yy fontfile zz" "fontfile" = true ∧
    (combine_videos envFontBoth "h.mp4" "d.mp4" emptyFs).evs.filter isFallbackEv = [] ∧
    (combine_videos envFontBoth "h.mp4" "d.mp4" emptyFs).evs.filter isNoTextEv = [] ∧
    (combine_videos envFontBoth "h.mp4" "d.mp4" emptyFs).success = false := by
  decide

/-- C1 (amended): when the overlaid FFmpeg invocation exits non-zero, the
diagnostic mentions `fontfile` or `textfile`, and it does **not** contain
`No such filter` (which takes precedence and aborts), `combine_videos`
retries exactly once via `combine_videos_fallback`, whose `drawtext` has no
font parameter; if that retry also exits non-zero, exactly one further
invocation runs without any text overlay (`combine_videos_no_text`); if the
retry succeeds, no no-text invocation happens. -/
theorem c1_amended (env : CombineEnv) (hp dp : String) (fs : Fs) (r : ProcResult)
    (hov : pyStrip env.overlayInput ≠ "")
    (hm : env.mainRun = .ok r)
    (hrc : ¬ r.returncode = 0)
    (hnf : strContains r.stderr "No such filter" = false)
    (hft : strContains r.stderr "fontfile" = true ∨
      strContains r.stderr "textfile" = true) :
    ((combine_videos env hp dp fs).evs.filter isFallbackEv =
      [Ev.ffmpegFallback (filterVideoWithText (drawtextFilter (textFilePath env) "") ++
        filterAudio (pyNumStr (get_video_duration env.hookProbe)))]) ∧
    (∀ r2, env.fallbackRun = .ok r2 → ¬ r2.returncode = 0 →
      (combine_videos env hp dp fs).evs.filter isNoTextEv =
        [Ev.ffmpegNoText (filterVideoNoText ++
          filterAudio (pyNumStr (get_video_duration env.hookProbe)))]) ∧
    (∀ r2, env.fallbackRun = .ok r2 → r2.returncode = 0 →
      (combine_videos env hp dp fs).evs.filter isNoTextEv = []) ∧
    ((combine_videos env hp dp fs).evs.filter isMainEv =
      [Ev.ffmpegMain (filterVideoWithText
          (drawtextFilter (textFilePath env) (fontParamOf env)) ++
        filterAudio (pyNumStr (get_video_duration env.hookProbe)))]) := by
  have hevs : (combine_videos env hp dp fs).evs =
      ([Ev.ffprobe hp, Ev.ffprobe dp] ++
        [Ev.writeTextFile (textFilePath env)
          (wrap_text_for_margins (pyStrip env.overlayInput) 1080 5)] ++
        [Ev.ffmpegMain (filterVideoWithText
            (drawtextFilter (textFilePath env) (fontParamOf env)) ++
          filterAudio (pyNumStr (get_video_duration env.hookProbe)))] ++
        (mainCleanup env (fsSet fs (textFilePath env) true)).2) ++
      (combine_videos_fallback env
        (mainCleanup env (fsSet fs (textFilePath env) true)).1
        (pyStrip env.overlayInput) (get_video_duration env.hookProbe)).evs := by
    unfold combine_videos
    simp only [hov, if_true, ne_eq, not_false_eq_true, ite_true, hm]
    simp only [if_neg hrc, hnf, Bool.false_eq_true, if_false]
    have hor : (strContains r.stderr "fontfile" || strContains r.stderr "textfile") = true := by
      rcases hft with h | h <;> simp [h]
    simp only [hor, if_true]
    try simp
  refine ⟨?_, ?_, ?_, ?_⟩
  · rw [hevs]
    simp only [List.filter_append]
    rw [filter_mainCleanup _ _ _ (fun q => rfl), fallback_filter_fallbackEv]
    simp [isFallbackEv]
  · intro r2 hr2 hrc2
    rw [hevs]
    simp only [List.filter_append]
    rw [filter_mainCleanup _ _ _ (fun q => rfl), fallback_filter_noTextEv]
    simp [isNoTextEv, hr2, hrc2]
  · intro r2 hr2 hrc2
    rw [hevs]
    simp only [List.filter_append]
    rw [filter_mainCleanup _ _ _ (fun q => rfl), fallback_filter_noTextEv]
    simp [isNoTextEv, hr2, hrc2]
  · rw [hevs]
    simp only [List.filter_append]
    rw [filter_mainCleanup _ _ _ (fun q => rfl), fallback_filter_mainEv]
    simp [isMainEv]

/-- C1 instance: a pure `fontfile` diagnostic triggers exactly one fallback
retry, and its failure exactly one no-text pass. -/
theorem c1_amended_witness :
    ((combine_videos envFontOnly "h.mp4" "d.mp4" emptyFs).evs.filter isFallbackEv =
      [Ev.ffmpegFallback (filterVideoWithText
          (drawtextFilter (textFilePath envFontOnly) "") ++
        filterAudio (pyNumStr (get_video_duration envFontOnly.hookProbe)))]) ∧
    (∀ r2, envFontOnly.fallbackRun = .ok r2 → ¬ r2.returncode = 0 →
      (combine_videos envFontOnly "h.mp4" "d.mp4" emptyFs).evs.filter isNoTextEv =
        [Ev.ffmpegNoText (filterVideoNoText ++
          filterAudio (pyNumStr (get_video_duration envFontOnly.hookProbe)))]) ∧
    (∀ r2, envFontOnly.fallbackRun = .ok r2 → r2.returncode = 0 →
      (combine_videos envFontOnly "h.mp4" "d.mp4" emptyFs).evs.filter isNoTextEv = []) ∧
    ((combine_videos envFontOnly "h.mp4" "d.mp4" emptyFs).evs.filter isMainEv =
      [Ev.ffmpegMain (filterVideoWithText
          (drawtextFilter (textFilePath envFontOnly) (fontParamOf envFontOnly)) ++
        filterAudio (pyNumStr (get_video_duration envFontOnly.hookProbe)))]) :=
  c1_amended envFontOnly "h.mp4" "d.mp4" emptyFs ⟨1, "yy fontfile zz"⟩
    (by decide) rfl (by decide) (by decide) (Or.inl (by decide))

/-- C10 instance: blanks-only overlay input on a failing FFmpeg run with a
font-related diagnostic still never enters a fallback. -/
theorem c10_empty_overlay_witness :
    (∀ p c, Ev.writeTextFile p c ∉ (combine_videos envBlankOverlay "h.mp4" "d.mp4" emptyFs).evs) ∧
    (∀ fc, Ev.ffmpegMain fc ∈ (combine_videos envBlankOverlay "h.mp4" "d.mp4" emptyFs).evs →
      fc = filterVideoNoText ++
        filterAudio (pyNumStr (get_video_duration envBlankOverlay.hookProbe))) ∧
    (∀ fc, Ev.ffmpegFallback fc ∉ (combine_videos envBlankOverlay "h.mp4" "d.mp4" emptyFs).evs) ∧
    (∀ fc, Ev.ffmpegNoText fc ∉ (combine_videos envBlankOverlay "h.mp4" "d.mp4" emptyFs).evs) :=
  c10_empty_overlay envBlankOverlay "h.mp4" "d.mp4" emptyFs (by decide)

end HookDemo
